import Mathlib

/-!
# Verification of the `tuist-app-localization` string-table tools

Shallow embedding of the two Python scripts
`skills/tuist-app-localization/scripts/validate_strings.py` and
`skills/tuist-app-localization/scripts/sync_translations.py`.

File contents are modelled as `List Char`.  Python `dict`s (which preserve
insertion order and update values in place) are modelled as association
lists with an in-place-update insert.  File encodings are modelled
abstractly by the `FileData` type: a file either decodes under UTF-8, or
only under UTF-16, or under neither.  Python regular expressions used by
the scripts are translated into deterministic matching functions; each
translation carries a comment recording the regex it embeds and why the
translation is faithful (for these particular patterns backtracking never
changes the result, so maximal-munch matching is exact).
-/

namespace LocTool

/-! ## Python dicts as insertion-ordered association lists -/

/-- `d[k] = v` on a Python dict: update in place if the key is present,
otherwise append at the end (insertion order is preserved). -/
def pyInsert {α : Type} : List (String × α) → String → α → List (String × α)
  | [], k, v => [(k, v)]
  | (k', v') :: rest, k, v =>
    if k' = k then (k', v) :: rest else (k', v') :: pyInsert rest k v

/-- `d[k]` on a Python dict: the value at the unique entry for `k`. -/
def pyGet? {α : Type} : List (String × α) → String → Option α
  | [], _ => none
  | p :: rest, k => if p.1 = k then some p.2 else pyGet? rest k

/-- `k in d` on a Python dict. -/
def containsKey {α : Type} : List (String × α) → String → Bool
  | [], _ => false
  | p :: rest, k => p.1 = k || containsKey rest k

/-- `list(d.keys())` on a Python dict. -/
def pyKeys {α : Type} (m : List (String × α)) : List String := m.map Prod.fst

/-! ## Characters and whitespace

`isSpace` models the ASCII part of Python's `\s` class and of
`str.strip()` / `str.rstrip()`.  (Python additionally accepts some
non-ASCII Unicode whitespace; the repository's inputs are ASCII
in all the places where this matters.) -/

def isSpace (c : Char) : Bool :=
  c = ' ' || c = '\t' || c = '\n' || c = '\r' || c = '\x0b' || c = '\x0c'

/-- Drop leading whitespace (the `\s*` pieces of the statement regex,
and the leading half of `str.strip()`). -/
def dropWs : List Char → List Char
  | [] => []
  | c :: rest => if isSpace c then dropWs rest else c :: rest

/-- `str.rstrip()`: drop trailing whitespace. -/
def rstripChars (s : List Char) : List Char := (dropWs s.reverse).reverse

/-- `str.strip()`: drop whitespace on both ends. -/
def stripChars (s : List Char) : List Char := dropWs (rstripChars s)

/-! ## The statement regex

Both scripts recognise statements with the same regular expression

  `"([^"\\]*(?:\\.[^"\\]*)*)"\s*=\s*"([^"\\]*(?:\\.[^"\\]*)*)"\s*;`

(the validator via `re.finditer` over the whole comment-stripped text, the
syncer via `re.match` on each stripped line).  The quoted-token
subpattern `[^"\\]*(?:\\.[^"\\]*)*` describes a sequence of atoms, an atom
being either a plain character (neither `"` nor `\`) or an escape pair
`\c` where `c` is any character except a newline (the scripts compile the
pattern without `re.DOTALL`, so the `.` of `\\.` does not match `\n`).
Matching this subpattern greedily is exact: the greedy scan can stop only
at the end of input, before a `"`, or before a `\` followed by a newline
or nothing, and no shorter atom decomposition can end in front of a `"`
(a reachable stop in front of `"` would already have stopped the greedy
scan, since `"` cannot start an atom).  Hence the whole statement pattern
is matched by the deterministic function `matchPair` below, and
backtracking never produces a different outcome.  -/

/-- Maximal-munch match of the quoted-token subpattern; returns the
consumed atoms and the rest of the input. -/
def munchToken : List Char → List Char × List Char
  | [] => ([], [])
  | c :: rest =>
    if c = '"' then ([], c :: rest)
    else if c = '\\' then
      match rest with
      | [] => ([], [c])
      | d :: rest2 =>
        if d = '\n' then ([], c :: d :: rest2)
        else
          let p := munchToken rest2
          (c :: d :: p.1, p.2)
    else
      let p := munchToken rest
      (c :: p.1, p.2)

/-- Match `"<token>"`: an opening quote, the token, a closing quote. -/
def matchQuoted (s : List Char) : Option (List Char × List Char) :=
  match s with
  | [] => none
  | c :: rest =>
    if c = '"' then
      let p := munchToken rest
      match p.2 with
      | [] => none
      | d :: r2 => if d = '"' then some (p.1, r2) else none
    else none

/-- Match one expected literal character. -/
def expectChar (c : Char) : List Char → Option (List Char)
  | [] => none
  | d :: rest => if d = c then some rest else none

/-- Match the whole statement pattern at the start of the input:
`"key"`, `\s*`, `=`, `\s*`, `"value"`, `\s*`, `;`.  Returns the captured
key and value (as `String`s) and the input following the match. -/
def matchPair (s : List Char) : Option (String × String × List Char) :=
  match matchQuoted s with
  | none => none
  | some (k, r1) =>
    match expectChar '=' (dropWs r1) with
    | none => none
    | some r3 =>
      match matchQuoted (dropWs r3) with
      | none => none
      | some (v, r5) =>
        match expectChar ';' (dropWs r5) with
        | none => none
        | some r7 => some (String.mk k, String.mk v, r7)

/-! ## String ordering

Python's `sorted` on strings compares code point sequences
lexicographically.  Lean core's `String.le` is implemented by
well-founded recursion on byte iterators and does not reduce in the
kernel, so we use an equivalent executable comparator on the character
lists. -/

def leList : List Char → List Char → Bool
  | [], _ => true
  | _ :: _, [] => false
  | a :: as, b :: bs =>
    if a.toNat < b.toNat then true
    else if b.toNat < a.toNat then false
    else leList as bs

def strLe (a b : String) : Bool := leList a.data b.data

/-- Python's `sorted` on a list of strings. -/
def sortedStr (l : List String) : List String :=
  List.insertionSort (fun a b => strLe a b = true) l

/-! ## `re.finditer` scan for statements (validator)

`re.finditer` yields the successive non-overlapping leftmost matches:
try the pattern at each position, and continue after the end of each
match.  The fuel argument (instantiated with the input length, an upper
bound on the number of scanning steps since every step consumes at least
one character) only serves to make the recursion structural. -/

def findPairsF : Nat → List Char → List (String × String)
  | 0, _ => []
  | Nat.succ n, s =>
    match s with
    | [] => []
    | c :: rest =>
      match matchPair (c :: rest) with
      | some (k, v, r) => (k, v) :: findPairsF n r
      | none => findPairsF n rest

def findPairs (s : List Char) : List (String × String) := findPairsF s.length s

/-! ## Comment stripping (validator)

The validator first removes block comments with
`re.sub(r'/\*.*?\*/', '', content, flags=re.DOTALL)` and then line
comments with `re.sub(r'//.*$', '', content, flags=re.MULTILINE)`.

For the block pattern, `re.sub` removes each leftmost match in turn and
continues scanning after it; the non-greedy `.*?\*/` ends a match at the
first `*/` after the opening `/*` (with `re.DOTALL` the removed span may
cross newlines).  An opening `/*` with no `*/` anywhere after it matches
nothing, and then no later `/*` can match either, so the remaining text
is left untouched. -/

/-- Everything after the first occurrence of `*/`, if any. -/
def splitCloseCom : List Char → Option (List Char)
  | [] => none
  | [_] => none
  | x :: y :: rest =>
    if x = '*' ∧ y = '/' then some rest else splitCloseCom (y :: rest)

def stripBlockF : Nat → List Char → List Char
  | 0, s => s
  | Nat.succ n, s =>
    match s with
    | [] => []
    | c :: rest =>
      if c = '/' ∧ rest.head? = some '*' then
        match splitCloseCom rest.tail with
        | some r => stripBlockF n r
        | none => c :: rest
      else c :: stripBlockF n rest

def stripBlock (s : List Char) : List Char := stripBlockF s.length s

/-- `content.split('\n')` (always returns at least one piece). -/
def splitNl : List Char → List (List Char)
  | [] => [[]]
  | c :: rest =>
    if c = '\n' then [] :: splitNl rest
    else
      match splitNl rest with
      | [] => [[c]]
      | l :: ls => (c :: l) :: ls

/-- `'\n'.join(...)` on raw character lines. -/
def joinNl : List (List Char) → List Char
  | [] => []
  | [l] => l
  | l :: ls => l ++ '\n' :: joinNl ls

/-- Remove everything from the first `//` (inclusive) to the end of the
line.  On each line this is what one `re.sub` replacement of `//.*$`
under `re.MULTILINE` does (`.` does not match `\n`, `$` matches just
before each `\n` and at the end). -/
def cutLineComment : List Char → List Char
  | [] => []
  | c :: rest =>
    if c = '/' ∧ rest.head? = some '/' then []
    else c :: cutLineComment rest

/-- `re.sub(r'//.*$', '', content, flags=re.MULTILINE)`: since newlines
are kept by the substitution and no match crosses a newline, the
substitution acts independently on each `\n`-separated line. -/
def stripLineComments (s : List Char) : List Char :=
  joinNl ((splitNl s).map cutLineComment)

/-- `line.startswith(p)` for a two-character marker `p`. -/
def startsWithPair (a b : Char) : List Char → Bool
  | x :: y :: _ => x = a && y = b
  | _ => false

/-! ## Files, directories, encodings

Both scripts read each file with `read_text(encoding='utf-8')` and, on
`UnicodeDecodeError`, retry with `read_text(encoding='utf-16')`.  A
file's on-disk bytes are modelled abstractly by which of the two decode
attempts succeed and what text results: `utf8 t` decodes at the first
attempt, `utf16 t` fails the first attempt and decodes at the second,
`undecodable` fails both. -/

inductive FileData
  | utf8 (text : List Char)
  | utf16 (text : List Char)
  | undecodable
deriving DecidableEq

/-- One `<lang>.lproj` resource directory, containing an optional
`Localizable.strings` file. -/
structure LprojDir where
  lang : String
  strings_file : Option FileData
deriving DecidableEq

/-- A module as both scripts see it: its name, whether the `Resources`
directory exists, and the `*.lproj` directories discovered inside it
(`lprojDirs` lists exactly the directories that exist on disk). -/
structure Module where
  name : String
  hasResources : Bool
  lprojDirs : List LprojDir
deriving DecidableEq

/-! ## `validate_strings.py` -/

namespace Validate

/-- The body of `parse_strings_file` after a successful read: strip
comments, scan for statements (`re.finditer`), build the dict and the
duplicate-key error list.  The duplicate check is made against the dict
before the statement's own insertion, and the insertion overwrites. -/
def parseContent (content : List Char) : List (String × String) × List String :=
  (findPairs (stripLineComments (stripBlock content))).foldl
    (fun acc kv =>
      ( pyInsert acc.1 kv.1 kv.2,
        if containsKey acc.1 kv.1 then acc.2 ++ ["Duplicate key: " ++ kv.1] else acc.2))
    ([], [])

/-- `parse_strings_file`, including the read: a file unreadable under
both encodings yields `({}, ["Cannot read file: ..."])` (the exception
text in the message is elided in the model). -/
def parse_strings_file : FileData → List (String × String) × List String
  | .utf8 t => parseContent t
  | .utf16 t => parseContent t
  | .undecodable => ([], ["Cannot read file"])

/-! `extract_placeholders` uses
`re.findall(r'%(?:\d+\$)?[-+0 #]*(?:\d+)?(?:\.\d+)?(?:hh|h|l|ll|L|z|j|t)?[diouxXeEfFgGaAcspn@%]', text)`.

The translation below is deterministic; greediness is exact for this
pattern because no backtracking alternative can succeed where the greedy
choice fails:
* `(?:\d+\$)?` — a `$` can only follow the full maximal digit run (a
  shorter `\d+` is followed by a digit, not `$`), and if the group fails
  downstream, skipping it cannot help since nothing else consumes `$`
  before the conversion character is required;
* `[-+0 #]*`, `(?:\d+)?`, `(?:\.\d+)?` — giving characters back only
  moves the match point onto a flag, digit or dot character, none of
  which is a length modifier or conversion character;
* `(?:hh|h|l|ll|L|z|j|t)?` — alternatives are tried in the written
  order, each commits only if a conversion character follows (this is
  how `ll` is reached although `l` precedes it). -/

def isFlagC (c : Char) : Bool := c = '-' || c = '+' || c = '0' || c = ' ' || c = '#'

def isConvC (c : Char) : Bool :=
  ['d', 'i', 'o', 'u', 'x', 'X', 'e', 'E', 'f', 'F', 'g', 'G',
   'a', 'A', 'c', 's', 'p', 'n', '@', '%'].contains c

/-- Maximal run of characters satisfying `p`, plus the rest. -/
def munchWhile (p : Char → Bool) : List Char → List Char × List Char
  | [] => ([], [])
  | c :: rest =>
    if p c then
      let q := munchWhile p rest
      (c :: q.1, q.2)
    else ([], c :: rest)

/-- If `p` is a prefix of `s`, the rest of `s`. -/
def stripPre : List Char → List Char → Option (List Char)
  | [], s => some s
  | _ :: _, [] => none
  | p :: ps, c :: s => if c = p then stripPre ps s else none

/-- Length-modifier alternatives in the regex's order, each committed
only when a conversion character follows; after all alternatives, the
empty choice with a direct conversion character. -/
def lenConvTry : List (List Char) → List Char → Option (List Char × List Char)
  | [], s =>
    match s with
    | c :: r => if isConvC c then some ([c], r) else none
    | [] => none
  | p :: ps, s =>
    match stripPre p s with
    | some (c :: r) => if isConvC c then some (p ++ [c], r) else lenConvTry ps s
    | _ => lenConvTry ps s

def lenConv (s : List Char) : Option (List Char × List Char) :=
  lenConvTry [['h', 'h'], ['h'], ['l'], ['l', 'l'], ['L'], ['z'], ['j'], ['t']] s

/-- Match the placeholder pattern immediately after a `%`; returns the
consumed characters (without the `%`) and the rest. -/
def matchSpec (s : List Char) : Option (List Char × List Char) :=
  let d0 := munchWhile Char.isDigit s
  let pos : List Char × List Char :=
    if d0.1 ≠ [] ∧ d0.2.head? = some '$' then (d0.1 ++ ['$'], d0.2.tail) else ([], s)
  let fl := munchWhile isFlagC pos.2
  let wd := munchWhile Char.isDigit fl.2
  let pr : List Char × List Char :=
    match wd.2 with
    | '.' :: r =>
      let pd := munchWhile Char.isDigit r
      if pd.1 ≠ [] then ('.' :: pd.1, pd.2) else ([], wd.2)
    | _ => ([], wd.2)
  match lenConv pr.2 with
  | some (lc, r6) => some (pos.1 ++ fl.1 ++ wd.1 ++ pr.1 ++ lc, r6)
  | none => none

/-- `re.findall` scan: try the pattern at every position (it can only
start at a `%`), continue after each match.  Fuel as in `findPairsF`. -/
def phScanF : Nat → List Char → List String
  | 0, _ => []
  | Nat.succ n, s =>
    match s with
    | [] => []
    | c :: rest =>
      if c = '%' then
        match matchSpec rest with
        | some (consumed, r) => String.mk ('%' :: consumed) :: phScanF n r
        | none => phScanF n rest
      else phScanF n rest

/-- `extract_placeholders`. -/
def extract_placeholders (text : String) : List String :=
  phScanF text.data.length text.data

/-- The per-language issue lists computed inside `validate_module`'s
loop. -/
structure LangIssues where
  missing : List String
  extra : List String
  ph : List (String × List String × List String)
  untr : List String
deriving DecidableEq

/-- The loop body of `validate_module` for one non-primary language.
Python iterates the set `primary_keys & lang_keys` in unspecified hash
order when collecting placeholder and untranslated issues; the model
iterates it in sorted order (the theorems below depend only on
membership in the resulting lists; `untranslated` is sorted by the
script itself afterwards). -/
def langIssues (primary_strings lang_strings : List (String × String)) : LangIssues :=
  let primary_keys := pyKeys primary_strings
  let lang_keys := pyKeys lang_strings
  let missing := primary_keys.filter (fun k => !(containsKey lang_strings k))
  let extra := lang_keys.filter (fun k => !(containsKey primary_strings k))
  let inter := sortedStr (primary_keys.filter (fun k => containsKey lang_strings k))
  let phIssues := inter.filterMap (fun k =>
    let pv := (pyGet? primary_strings k).getD ""
    let lv := (pyGet? lang_strings k).getD ""
    if sortedStr (extract_placeholders pv) ≠ sortedStr (extract_placeholders lv) then
      some (k, extract_placeholders pv, extract_placeholders lv)
    else none)
  let untr := inter.filter (fun k =>
    let pv := (pyGet? primary_strings k).getD ""
    let lv := (pyGet? lang_strings k).getD ""
    lv = pv && stripChars pv.data ≠ [])
  ⟨sortedStr missing, sortedStr extra, phIssues, sortedStr untr⟩

structure VSummary where
  module : String
  languages : List String
  primary_language : String
  total_keys : Nat
  issues_count : Nat
deriving DecidableEq

structure VIssues where
  missing_keys : List (String × List String)
  extra_keys : List (String × List String)
  placeholder_mismatches : List (String × List (String × List String × List String))
  untranslated : List (String × List String)
  parse_errors : List (String × List String)
deriving DecidableEq

inductive VOutcome
  | error (msg : String)
  | report (summary : VSummary) (issues : VIssues)
deriving DecidableEq

/-- `validate_module`.  Error messages keep the script's fixed prefix;
interpolated paths are elided. -/
def validate_module (m : Module) : VOutcome :=
  if !m.hasResources then .error "Resources directory not found"
  else if m.lprojDirs.isEmpty then .error "No .lproj directories found"
  else
    let parsed := m.lprojDirs.filterMap (fun d =>
      d.strings_file.map (fun fd => (d.lang, parse_strings_file fd)))
    let all_strings := parsed.foldl (fun acc p => pyInsert acc p.1 p.2.1) []
    let parse_errors := parsed.foldl (fun acc p =>
      if p.2.2.isEmpty then acc else pyInsert acc p.1 p.2.2) []
    match all_strings with
    | [] => .error "No Localizable.strings files found"
    | first :: _ =>
      let primary_lang := if containsKey all_strings "en" then "en" else first.1
      let primary_strings := (pyGet? all_strings primary_lang).getD []
      let primary_keys := pyKeys primary_strings
      let issues := all_strings.foldl (fun (acc : VIssues) p =>
        if p.1 = primary_lang then acc
        else
          let r := langIssues primary_strings p.2
          { acc with
            missing_keys :=
              if r.missing.isEmpty then acc.missing_keys
              else pyInsert acc.missing_keys p.1 r.missing
            extra_keys :=
              if r.extra.isEmpty then acc.extra_keys
              else pyInsert acc.extra_keys p.1 r.extra
            placeholder_mismatches :=
              if r.ph.isEmpty then acc.placeholder_mismatches
              else pyInsert acc.placeholder_mismatches p.1 r.ph
            untranslated :=
              if r.untr.isEmpty then acc.untranslated
              else pyInsert acc.untranslated p.1 r.untr })
        ⟨[], [], [], [], parse_errors⟩
      let issues_count :=
        (issues.missing_keys.map (fun p => p.2.length)).sum
          + (issues.placeholder_mismatches.map (fun p => p.2.length)).sum
      .report
        ⟨m.name, pyKeys all_strings, primary_lang, primary_keys.length, issues_count⟩
        issues

end Validate

/-! ## `sync_translations.py` -/

namespace Sync

/-- The two-stage read: UTF-8, then UTF-16.  In this script neither
attempt is guarded beyond the first `except UnicodeDecodeError`, so a
file unreadable under both encodings raises an uncaught exception,
modelled by `Except.error`. -/
def read_text : FileData → Except Unit (List Char)
  | .utf8 t => .ok t
  | .utf16 t => .ok t
  | .undecodable => .error ()

/-- The body of `parse_strings_file` after a successful read: the
line-by-line scan.  Lines whose stripped form starts with `/*` or `//`
are collected as comments (the `current_comment` accumulator is dropped
from the model: the function's returned values never depend on it); on
other lines `re.match` anchors the statement pattern at the start of the
stripped line, ignoring anything after the matched `;`. -/
def parseContent (content : List Char) :
    List (String × String) × List (String × String) :=
  (splitNl content).foldl
    (fun acc line =>
      let stripped := stripChars line
      if startsWithPair '/' '*' stripped || startsWithPair '/' '/' stripped then acc
      else
        match matchPair stripped with
        | some (k, v, _) => (pyInsert acc.1 k v, acc.2 ++ [(k, v)])
        | none => acc)
    ([], [])

/-- `parse_strings_file` including the unguarded read. -/
def parse_strings_file (fd : FileData) :
    Except Unit (List (String × String) × List (String × String)) :=
  (read_text fd).map parseContent

/-- Per-language report entry: either the `file_missing` degenerate
entry or the full statistics entry.  `completion_tenths` holds the
reported completion percentage in tenths of a percent (so `50.0` is
`500`): the script computes `round((len(lang_keys)/len(primary_keys))*100, 1)`;
the model rounds the exact rational to the nearest tenth, ties to even,
which is Python's rounding rule (the tiny representation error of the
intermediate float is not modelled). -/
inductive LangEntry
  | missingFile (missing_count : Nat)
  | stats (status : String) (total_keys missing_count extra_count : Nat)
      (missing_keys : List String) (completion_tenths : Nat)
deriving DecidableEq

/-- Round-half-even of `1000 * num / den` (the completion percentage of
`num` out of `den` keys, in tenths of a percent). -/
def roundTenthsHalfEven (num den : Nat) : Nat :=
  let a := 1000 * num
  let q := a / den
  let r := a % den
  if 2 * r < den then q
  else if den < 2 * r then q + 1
  else if q % 2 = 0 then q else q + 1

/-- The missing-key set the loop computes for a target file's text. -/
def missingOf (primary_keys : List String) (txt : List Char) : List String :=
  primary_keys.filter (fun k => !(containsKey (parseContent txt).1 k))

/-- The statistics entry the loop builds for an existing, readable
target file. -/
def statsEntry (primary_strings : List (String × String))
    (primary_keys : List String) (txt : List Char) : LangEntry :=
  let lang_strings := (parseContent txt).1
  let lang_keys := pyKeys lang_strings
  let missing := missingOf primary_keys txt
  let extra := lang_keys.filter (fun k => !(containsKey primary_strings k))
  .stats (if missing.isEmpty then "ok" else "incomplete")
    lang_keys.length missing.length extra.length
    (if missing.isEmpty then [] else sortedStr missing)
    (if primary_keys.isEmpty then 1000
     else roundTenthsHalfEven lang_keys.length primary_keys.length)

/-- One appended block,
`f'\n/* TODO: Translate from English */\n"{key}" = "{value}";'`. -/
def additionFor (k v : String) : List Char :=
  ('\n' :: ("/* TODO: Translate from English */".data))
    ++ ('\n' :: '"' :: k.data) ++ ("\" = \"".data) ++ v.data ++ ("\";".data)

/-- `content.rstrip() + "\n" + "\n".join(additions) + "\n"` with one
addition per missing key in sorted order, the value copied from the
parsed primary table. -/
def new_content (content : List Char) (primary_strings : List (String × String))
    (missing : List String) : List Char :=
  let additions := (sortedStr missing).map
    (fun k => additionFor k ((pyGet? primary_strings k).getD ""))
  rstripChars content ++ '\n' :: joinNl additions ++ ['\n']

/-- `strings_file.write_text(new_content, encoding='utf-8')`: replace
the file of every directory at this path (the path determines the
directory by its language name). -/
def writeFile (m : Module) (lang : String) (fd : FileData) : Module :=
  { m with
    lprojDirs := m.lprojDirs.map (fun e =>
      if e.lang = lang then { e with strings_file := some fd } else e) }

structure SyncReport where
  module : String
  primary_language : String
  total_keys : Nat
  languages : List (String × LangEntry)
  synced_files : Option (List String)
deriving DecidableEq

/-- `sync_module` returns either an error dict or a report dict; the
report's `timestamp` field (wall-clock metadata) is not modelled. -/
inductive SyncOutcome
  | errorDict (msg : String)
  | report (r : SyncReport)
deriving DecidableEq

inductive Mode
  | report
  | sync
deriving DecidableEq

/-- `sorted(lproj_dirs)`: paths share the parent directory, so `Path`
ordering reduces to the final component `<lang>.lproj`; Python's sort
and `List.insertionSort` are both stable. -/
def sortedDirs (dirs : List LprojDir) : List LprojDir :=
  List.insertionSort (fun a b => strLe (a.lang ++ ".lproj") (b.lang ++ ".lproj") = true) dirs

/-- The per-language loop of `sync_module`.  In sync mode the script
re-reads the just-parsed file before appending; the file is unchanged
between the two reads, so the model reuses the first read's text.  A
`UnicodeDecodeError` of the unguarded read propagates (`Except.error`),
keeping the writes performed so far. -/
def syncLoop (ps : List (String × String)) (pk : List String) (mode : Mode) :
    List LprojDir → Module → List (String × LangEntry) → List String →
    Except Unit (List (String × LangEntry) × List String) × Module
  | [], m, acc, synced => (.ok (acc, synced), m)
  | d :: rest, m, acc, synced =>
    if d.lang = "en" then syncLoop ps pk mode rest m acc synced
    else
      match d.strings_file with
      | none =>
        syncLoop ps pk mode rest m
          (pyInsert acc d.lang (.missingFile pk.length)) synced
      | some fd =>
        match read_text fd with
        | .error _ => (.error (), m)
        | .ok txt =>
          let acc' := pyInsert acc d.lang (statsEntry ps pk txt)
          if mode = Mode.sync ∧ !(missingOf pk txt).isEmpty then
            syncLoop ps pk mode rest
              (writeFile m d.lang (.utf8 (new_content txt ps (missingOf pk txt))))
              acc' (synced ++ [d.lang ++ ".lproj/Localizable.strings"])
          else syncLoop ps pk mode rest m acc' synced

/-- `sync_module`.  The first component is the returned dict (or the
uncaught exception), the second the module's on-disk state afterwards. -/
def sync_module (m : Module) (mode : Mode) : Except Unit SyncOutcome × Module :=
  if !m.hasResources then (.ok (.errorDict "Resources directory not found"), m)
  else if m.lprojDirs.isEmpty then (.ok (.errorDict "No .lproj directories found"), m)
  else
    match m.lprojDirs.find? (fun d => d.lang == "en") with
    | none => (.ok (.errorDict "English (en.lproj) not found"), m)
    | some dEn =>
      match dEn.strings_file with
      | none => (.ok (.errorDict "English Localizable.strings not found"), m)
      | some fd =>
        match read_text fd with
        | .error _ => (.error (), m)
        | .ok txt =>
          let primary_strings := (parseContent txt).1
          let primary_keys := pyKeys primary_strings
          match syncLoop primary_strings primary_keys mode (sortedDirs m.lprojDirs) m [] [] with
          | (.error _, m') => (.error (), m')
          | (.ok (langs, synced), m') =>
            (.ok (.report
              ⟨m.name, "en", primary_keys.length, langs,
               if mode = Mode.sync then some synced else none⟩), m')

end Sync

/-! ## Lemmas: the string order -/

theorem leList_total (x y : List Char) : leList x y = true ∨ leList y x = true := by
  induction x generalizing y with
  | nil => left; rfl
  | cons c cs ih =>
    cases y with
    | nil => right; rfl
    | cons d ds =>
      by_cases h1 : c.toNat < d.toNat
      · left; simp [leList, h1]
      · by_cases h2 : d.toNat < c.toNat
        · right; simp [leList, h2]
        · rcases ih ds with h | h
          · left; simpa [leList, h1, h2] using h
          · right; simpa [leList, h1, h2] using h

theorem leList_cons_iff {c d : Char} {cs ds : List Char} :
    leList (c :: cs) (d :: ds) = true ↔
      c.toNat < d.toNat ∨ (c.toNat = d.toNat ∧ leList cs ds = true) := by
  by_cases h1 : c.toNat < d.toNat
  · simp [leList, h1]
  · by_cases h2 : d.toNat < c.toNat
    · simp [leList, h1, h2]; omega
    · have h3 : ¬ c.toNat = d.toNat → False := by omega
      simp [leList, h1, h2]; omega

theorem leList_trans {x y z : List Char} (hxy : leList x y = true)
    (hyz : leList y z = true) : leList x z = true := by
  induction x generalizing y z with
  | nil => rfl
  | cons c cs ih =>
    cases y with
    | nil => simp [leList] at hxy
    | cons d ds =>
      cases z with
      | nil => simp [leList] at hyz
      | cons e es =>
        rw [leList_cons_iff] at hxy hyz ⊢
        rcases hxy with h | ⟨he, hr⟩
        · rcases hyz with h' | ⟨he', _⟩
          · exact Or.inl (by omega)
          · exact Or.inl (by omega)
        · rcases hyz with h' | ⟨he', hr'⟩
          · exact Or.inl (by omega)
          · exact Or.inr ⟨by omega, ih hr hr'⟩

theorem char_eq_of_toNat_eq {c d : Char} (h : c.toNat = d.toNat) : c = d := by
  have := congrArg Char.ofNat h
  rwa [Char.ofNat_toNat, Char.ofNat_toNat] at this

theorem leList_antisymm {x y : List Char} (hxy : leList x y = true)
    (hyx : leList y x = true) : x = y := by
  induction x generalizing y with
  | nil =>
    cases y with
    | nil => rfl
    | cons d ds => simp [leList] at hyx
  | cons c cs ih =>
    cases y with
    | nil => simp [leList] at hxy
    | cons d ds =>
      rw [leList_cons_iff] at hxy hyx
      rcases hxy with h | ⟨he, hr⟩
      · rcases hyx with h' | ⟨he', _⟩ <;> omega
      · rcases hyx with h' | ⟨he', hr'⟩
        · omega
        · rw [char_eq_of_toNat_eq he, ih hr hr']

theorem strLe_total (a b : String) : strLe a b = true ∨ strLe b a = true :=
  leList_total a.data b.data

theorem strLe_trans {a b c : String} (h1 : strLe a b = true)
    (h2 : strLe b c = true) : strLe a c = true :=
  leList_trans h1 h2

theorem strLe_antisymm {a b : String} (h1 : strLe a b = true)
    (h2 : strLe b a = true) : a = b := by
  cases a; cases b
  exact congrArg String.mk (leList_antisymm h1 h2)

instance : IsTotal String (fun a b => strLe a b = true) := ⟨strLe_total⟩
instance : IsTrans String (fun a b => strLe a b = true) := ⟨fun _ _ _ => strLe_trans⟩
instance : IsAntisymm String (fun a b => strLe a b = true) := ⟨fun _ _ => strLe_antisymm⟩

theorem sortedStr_perm (l : List String) : List.Perm (sortedStr l) l :=
  List.perm_insertionSort _ l

theorem sortedStr_sorted (l : List String) :
    List.Sorted (fun a b => strLe a b = true) (sortedStr l) :=
  List.sorted_insertionSort _ l

theorem mem_sortedStr {x : String} {l : List String} : x ∈ sortedStr l ↔ x ∈ l :=
  (sortedStr_perm l).mem_iff

/-- Two lists of strings have the same `sorted` form exactly when they
are permutations of each other. -/
theorem sortedStr_eq_iff_perm {a b : List String} :
    sortedStr a = sortedStr b ↔ List.Perm a b := by
  constructor
  · intro h
    exact ((sortedStr_perm a).symm.trans (h ▸ sortedStr_perm b))
  · intro h
    exact List.eq_of_perm_of_sorted
      (((sortedStr_perm a).trans h).trans (sortedStr_perm b).symm)
      (sortedStr_sorted a) (sortedStr_sorted b)

/-! ## Lemmas: dicts -/

theorem pyGet?_insert_self {α : Type} (m : List (String × α)) (k : String) (v : α) :
    pyGet? (pyInsert m k v) k = some v := by
  induction m with
  | nil => simp [pyInsert, pyGet?]
  | cons p rest ih =>
    obtain ⟨k1, v1⟩ := p
    by_cases h : k1 = k
    · simp [pyInsert, h, pyGet?]
    · simp [pyInsert, h, pyGet?, ih]

theorem pyGet?_insert_ne {α : Type} (m : List (String × α)) (k k' : String) (v : α)
    (h : k' ≠ k) : pyGet? (pyInsert m k v) k' = pyGet? m k' := by
  have h' : ¬ k = k' := fun hk => h hk.symm
  induction m with
  | nil => simp [pyInsert, pyGet?, h']
  | cons p rest ih =>
    obtain ⟨k1, v1⟩ := p
    by_cases h1 : k1 = k
    · subst h1
      simp [pyInsert, pyGet?, h']
    · simp [pyInsert, h1, pyGet?, ih]

theorem containsKey_iff_mem_pyKeys {α : Type} {m : List (String × α)} {k : String} :
    containsKey m k = true ↔ k ∈ pyKeys m := by
  induction m with
  | nil => simp [containsKey, pyKeys]
  | cons p rest ih =>
    obtain ⟨k1, v1⟩ := p
    by_cases h : k1 = k
    · simp [containsKey, pyKeys, h]
    · have h2 : ¬ k = k1 := fun hk => h hk.symm
      simp [containsKey, pyKeys, h, h2, ih]

theorem containsKey_insert {α : Type} (m : List (String × α)) (k k' : String) (v : α) :
    containsKey (pyInsert m k v) k' = (decide (k = k') || containsKey m k') := by
  induction m with
  | nil => simp [pyInsert, containsKey]
  | cons p rest ih =>
    obtain ⟨k1, v1⟩ := p
    by_cases h1 : k1 = k
    · subst h1
      by_cases h2 : k1 = k' <;> simp [pyInsert, containsKey, h2]
    · by_cases h2 : k1 = k'
      · subst h2
        simp [pyInsert, containsKey, h1]
      · simp [pyInsert, containsKey, h1, h2, ih]

theorem pyKeys_insert_of_contains {α : Type} {m : List (String × α)} {k : String}
    (v : α) (h : containsKey m k = true) :
    pyKeys (pyInsert m k v) = pyKeys m := by
  induction m with
  | nil => simp [containsKey] at h
  | cons p rest ih =>
    obtain ⟨k1, v1⟩ := p
    by_cases hp : k1 = k
    · simp [pyInsert, hp, pyKeys]
    · have hr : containsKey rest k = true := by
        simpa [containsKey, hp] using h
      simpa [pyInsert, hp, pyKeys] using ih hr

theorem pyKeys_insert_of_not_contains {α : Type} {m : List (String × α)} {k : String}
    (v : α) (h : ¬ containsKey m k = true) :
    pyKeys (pyInsert m k v) = pyKeys m ++ [k] := by
  induction m with
  | nil => simp [pyInsert, pyKeys]
  | cons p rest ih =>
    obtain ⟨k1, v1⟩ := p
    have hp : ¬ k1 = k := fun hk => h (by simp [containsKey, hk])
    have hr : ¬ containsKey rest k = true := fun hk => h (by simp [containsKey, hk])
    simpa [pyInsert, hp, pyKeys] using ih hr

theorem pyKeys_insert_nodup {α : Type} {m : List (String × α)} {k : String} (v : α)
    (h : (pyKeys m).Nodup) : (pyKeys (pyInsert m k v)).Nodup := by
  by_cases hc : containsKey m k = true
  · rwa [pyKeys_insert_of_contains v hc]
  · rw [pyKeys_insert_of_not_contains v hc]
    have : k ∉ pyKeys m := fun hk => hc (containsKey_iff_mem_pyKeys.mpr hk)
    simpa [List.nodup_append] using ⟨h, this⟩

/-- The value of the last pair recorded for `k` in a pair list (Python
dict semantics: later statements overwrite earlier ones). -/
def lastVal {α : Type} : List (String × α) → String → Option α
  | [], _ => none
  | p :: pairs, k => (lastVal pairs k).or (if p.1 = k then some p.2 else none)

/-- Folding `pyInsert` over a pair list looks up to the last value,
falling back to the initial dict. -/
theorem foldl_pyInsert_get {α : Type} (pairs : List (String × α))
    (d : List (String × α)) (k : String) :
    pyGet? (pairs.foldl (fun acc kv => pyInsert acc kv.1 kv.2) d) k =
      ((lastVal pairs k).or (pyGet? d k)) := by
  induction pairs generalizing d with
  | nil => cases h : pyGet? d k <;> simp [lastVal, Option.or, h]
  | cons p rest ih =>
    obtain ⟨k1, v1⟩ := p
    rw [List.foldl_cons, ih (pyInsert d k1 v1)]
    show _ = (lastVal ((k1, v1) :: rest) k).or (pyGet? d k)
    by_cases h : k1 = k
    · subst h
      rw [pyGet?_insert_self]
      show _ = ((lastVal rest k1).or (if k1 = k1 then some v1 else none)).or _
      simp only [if_pos rfl]
      cases lastVal rest k1 <;> simp [Option.or]
    · rw [pyGet?_insert_ne d k1 k v1 (fun hk => h hk.symm)]
      show _ = ((lastVal rest k).or (if k1 = k then some v1 else none)).or _
      simp only [if_neg h]
      cases lastVal rest k <;> cases pyGet? d k <;> simp [Option.or]

/-! ## Lemmas: fuel elimination for the scanners -/

theorem munchToken_nil : munchToken [] = ([], []) := by
  rw [munchToken.eq_def]

theorem munchToken_quote (rest : List Char) :
    munchToken ('"' :: rest) = ([], '"' :: rest) := by
  rw [munchToken.eq_def]; simp

theorem munchToken_bs_nil : munchToken ['\\'] = ([], ['\\']) := by
  rw [munchToken.eq_def]; simp

theorem munchToken_bs_nl (rest : List Char) :
    munchToken ('\\' :: '\n' :: rest) = ([], '\\' :: '\n' :: rest) := by
  rw [munchToken.eq_def]; simp

theorem munchToken_bs_pair {d : Char} (rest2 : List Char) (hd : ¬ d = '\n') :
    munchToken ('\\' :: d :: rest2) =
      ('\\' :: d :: (munchToken rest2).1, (munchToken rest2).2) := by
  rw [munchToken.eq_def]; simp [hd]

theorem munchToken_plain {c : Char} (rest : List Char) (h1 : ¬ c = '"')
    (h2 : ¬ c = '\\') :
    munchToken (c :: rest) = (c :: (munchToken rest).1, (munchToken rest).2) := by
  rw [munchToken.eq_def]
  simp [h1, h2]

theorem munchToken_rest_length (s : List Char) :
    (munchToken s).2.length ≤ s.length := by
  induction s using munchToken.induct with
  | case1 => simp [munchToken_nil]
  | case2 rest => simp [munchToken_quote]
  | case3 h => simp [munchToken_bs_nil]
  | case4 rest h => simp [munchToken_bs_nl]
  | case5 d rest2 hd h ih =>
    rw [munchToken_bs_pair rest2 hd]
    simp only [List.length_cons]
    omega
  | case6 c rest h1 h2 ih =>
    rw [munchToken_plain rest h1 h2]
    simp only [List.length_cons]
    omega

theorem dropWs_length (s : List Char) : (dropWs s).length ≤ s.length := by
  induction s with
  | nil => simp [dropWs]
  | cons c rest ih =>
    by_cases h : isSpace c = true
    · simp only [dropWs, if_pos h, List.length_cons]
      omega
    · simp [dropWs, h]

theorem expectChar_length {c : Char} {s r : List Char}
    (h : expectChar c s = some r) : r.length < s.length := by
  cases s with
  | nil => simp [expectChar] at h
  | cons d rest =>
    by_cases hd : d = c
    · simp only [expectChar, if_pos hd, Option.some.injEq] at h
      subst h; simp
    · simp [expectChar, hd] at h

theorem matchQuoted_length {s : List Char} {t r : List Char}
    (h : matchQuoted s = some (t, r)) : r.length < s.length := by
  cases s with
  | nil => simp [matchQuoted] at h
  | cons c rest =>
    by_cases hc : c = '"'
    · simp only [matchQuoted, if_pos hc] at h
      cases hp : (munchToken rest).2 with
      | nil => rw [hp] at h; simp at h
      | cons d r2 =>
        rw [hp] at h
        by_cases hd : d = '"'
        · simp only [if_pos hd, Option.some.injEq, Prod.mk.injEq] at h
          obtain ⟨h1, h2⟩ := h
          subst h2
          have := munchToken_rest_length rest
          rw [hp] at this
          simp only [List.length_cons] at this ⊢
          omega
        · simp [hd] at h
    · simp [matchQuoted, hc] at h

theorem matchPair_length {s : List Char} {k v : String} {r : List Char}
    (h : matchPair s = some (k, v, r)) : r.length < s.length := by
  unfold matchPair at h
  split at h
  · exact absurd h (by simp)
  next kk r1 h1 =>
    split at h
    · exact absurd h (by simp)
    next r3 h2 =>
      split at h
      · exact absurd h (by simp)
      next vv r5 h3 =>
        split at h
        · exact absurd h (by simp)
        next r7 h4 =>
          simp only [Option.some.injEq, Prod.mk.injEq] at h
          obtain ⟨-, -, hr⟩ := h
          subst hr
          have l1 := matchQuoted_length h1
          have l2 := dropWs_length r1
          have l3 := expectChar_length h2
          have l4 := dropWs_length r3
          have l5 := matchQuoted_length h3
          have l6 := dropWs_length r5
          have l7 := expectChar_length h4
          omega

/-- A match never starts anywhere but at a `"`. -/
theorem matchPair_none_of_head {c : Char} (rest : List Char) (h : ¬ c = '"') :
    matchPair (c :: rest) = none := by
  unfold matchPair
  simp [matchQuoted, h]

theorem matchPair_nil : matchPair [] = none := rfl

theorem findPairsF_congr : ∀ (n m : Nat) (s : List Char),
    s.length ≤ n → s.length ≤ m → findPairsF n s = findPairsF m s := by
  intro n
  induction n with
  | zero =>
    intro m s hn _
    have : s = [] := List.length_eq_zero.mp (Nat.le_zero.mp hn)
    subst this
    cases m <;> simp [findPairsF]
  | succ n ih =>
    intro m s hn hm
    cases s with
    | nil => cases m <;> simp [findPairsF]
    | cons c rest =>
      cases m with
      | zero => simp at hm
      | succ m' =>
        simp only [findPairsF]
        cases hp : matchPair (c :: rest) with
        | none =>
          exact ih m' rest (by simpa using hn) (by simpa using hm)
        | some kvr =>
          obtain ⟨k, v, r⟩ := kvr
          have hlt := matchPair_length hp
          simp only [List.length_cons] at hlt hn hm
          dsimp only
          rw [ih m' r (by omega) (by omega)]

theorem findPairs_cons_none {c : Char} {rest : List Char}
    (h : matchPair (c :: rest) = none) :
    findPairs (c :: rest) = findPairs rest := by
  unfold findPairs
  simp only [List.length_cons, findPairsF, h]

theorem findPairs_cons_some {s : List Char} {k v : String} {r : List Char}
    (h : matchPair s = some (k, v, r)) :
    findPairs s = (k, v) :: findPairs r := by
  cases s with
  | nil => simp [matchPair_nil] at h
  | cons c rest =>
    unfold findPairs
    simp only [List.length_cons, findPairsF, h]
    have hlt := matchPair_length h
    simp only [List.length_cons] at hlt
    rw [findPairsF_congr _ _ r (by omega) le_rfl]

theorem findPairs_nil : findPairs [] = [] := rfl

/-- Characters that cannot start a match are skipped. -/
theorem findPairs_cons_skip {c : Char} (rest : List Char) (h : ¬ c = '"') :
    findPairs (c :: rest) = findPairs rest :=
  findPairs_cons_none (matchPair_none_of_head rest h)

theorem splitCloseCom_length {t r : List Char} (h : splitCloseCom t = some r) :
    r.length + 2 ≤ t.length := by
  induction t using splitCloseCom.induct generalizing r with
  | case1 => simp [splitCloseCom] at h
  | case2 x => simp [splitCloseCom] at h
  | case3 x y rest hxy =>
    rw [splitCloseCom.eq_def] at h
    simp only [hxy, if_pos] at h
    cases h
    simp
  | case4 x y rest hxy ih =>
    rw [splitCloseCom.eq_def] at h
    simp only [hxy, if_neg, if_false] at h
    have := ih h
    simp only [List.length_cons] at this ⊢
    omega

theorem stripBlockF_congr : ∀ (n m : Nat) (s : List Char),
    s.length ≤ n → s.length ≤ m → stripBlockF n s = stripBlockF m s := by
  intro n
  induction n with
  | zero =>
    intro m s hn _
    have : s = [] := List.length_eq_zero.mp (Nat.le_zero.mp hn)
    subst this
    cases m <;> simp [stripBlockF]
  | succ n ih =>
    intro m s hn hm
    cases s with
    | nil => cases m <;> simp [stripBlockF]
    | cons c rest =>
      cases m with
      | zero => simp at hm
      | succ m' =>
        simp only [stripBlockF]
        by_cases hc : c = '/' ∧ rest.head? = some '*'
        · simp only [if_pos hc]
          cases hs : splitCloseCom rest.tail with
          | none => rfl
          | some r =>
            have hr := splitCloseCom_length hs
            have ht : rest.tail.length ≤ rest.length := by
              cases rest <;> simp
            simp only [List.length_cons] at hn hm
            exact ih m' r (by omega) (by omega)
        · simp only [if_neg hc]
          simp only [List.length_cons] at hn hm
          rw [ih m' rest (by omega) (by omega)]

theorem stripBlock_nil : stripBlock [] = [] := rfl

theorem stripBlock_cons {c : Char} {rest : List Char}
    (h : ¬ (c = '/' ∧ rest.head? = some '*')) :
    stripBlock (c :: rest) = c :: stripBlock rest := by
  unfold stripBlock
  simp only [List.length_cons, stripBlockF, if_neg h]

theorem stripBlockF_open (n : Nat) (t : List Char) :
    stripBlockF (Nat.succ n) ('/' :: '*' :: t) =
      (match splitCloseCom t with
       | some r => stripBlockF n r
       | none => '/' :: '*' :: t) := by
  rw [stripBlockF.eq_def]
  dsimp only
  rw [if_pos (⟨rfl, rfl⟩ : ('/' : Char) = '/' ∧ ('*' :: t).head? = some '*')]
  rfl

theorem stripBlock_open_some {t r : List Char} (h : splitCloseCom t = some r) :
    stripBlock ('/' :: '*' :: t) = stripBlock r := by
  have hr := splitCloseCom_length h
  show stripBlockF ('/' :: '*' :: t).length ('/' :: '*' :: t) = stripBlockF r.length r
  have hl : ('/' :: '*' :: t).length = Nat.succ (t.length + 1) := by simp
  rw [hl, stripBlockF_open, h]
  exact stripBlockF_congr _ _ r (by omega) le_rfl

theorem stripBlock_open_none {t : List Char} (h : splitCloseCom t = none) :
    stripBlock ('/' :: '*' :: t) = '/' :: '*' :: t := by
  show stripBlockF ('/' :: '*' :: t).length ('/' :: '*' :: t) = _
  have hl : ('/' :: '*' :: t).length = Nat.succ (t.length + 1) := by simp
  rw [hl, stripBlockF_open, h]

/-! ## Infrastructure for comparing the two parsers

The lemmas below trace both parsers over file contents given as a list
of newline-free lines. -/

/-- The two-character substring `ab` occurs somewhere in the list. -/
def hasPair (a b : Char) : List Char → Bool
  | [] => false
  | [_] => false
  | x :: y :: rest => (x = a && y = b) || hasPair a b (y :: rest)

theorem hasPair_cons {a b x : Char} {y : Char} {rest : List Char} :
    hasPair a b (x :: y :: rest) =
      ((x = a && y = b) || hasPair a b (y :: rest)) := by
  rw [hasPair.eq_def]

theorem splitCloseCom_cons2 (x y : Char) (rest : List Char) :
    splitCloseCom (x :: y :: rest) =
      if x = '*' ∧ y = '/' then some rest else splitCloseCom (y :: rest) := by
  rw [splitCloseCom.eq_def]

/-- Appending behind the first `*/` does not change what precedes it. -/
theorem splitCloseCom_append {t r : List Char} (u : List Char)
    (h : splitCloseCom t = some r) : splitCloseCom (t ++ u) = some (r ++ u) := by
  induction t using splitCloseCom.induct generalizing r with
  | case1 => simp [splitCloseCom] at h
  | case2 x => simp [splitCloseCom] at h
  | case3 x y rest hxy =>
    rw [splitCloseCom_cons2, if_pos hxy] at h
    cases h
    simp only [List.cons_append, splitCloseCom_cons2, if_pos hxy]
  | case4 x y rest hxy ih =>
    rw [splitCloseCom_cons2, if_neg hxy] at h
    simp only [List.cons_append, splitCloseCom_cons2, if_neg hxy]
    exact ih h

/-- Whitespace characters are none of the characters the scanners react
to. -/
theorem isSpace_facts {c : Char} (h : isSpace c = true) :
    ¬ c = '"' ∧ ¬ c = '/' ∧ ¬ c = '*' := by
  refine ⟨fun hc => ?_, fun hc => ?_, fun hc => ?_⟩ <;> subst hc <;>
    exact absurd h (by decide)

theorem dropWs_decomp (l : List Char) :
    ∃ w, l = w ++ dropWs l ∧ ∀ c ∈ w, isSpace c = true := by
  induction l with
  | nil => exact ⟨[], rfl, by simp⟩
  | cons c rest ih =>
    by_cases h : isSpace c = true
    · obtain ⟨w, hw, hws⟩ := ih
      refine ⟨c :: w, ?_, ?_⟩
      · simp only [dropWs, if_pos h, List.cons_append]
        exact congrArg (c :: ·) hw
      · intro x hx
        rcases List.mem_cons.mp hx with hx | hx
        · exact hx ▸ h
        · exact hws x hx
    · exact ⟨[], by simp [dropWs, h], by simp⟩

theorem rstrip_decomp (l : List Char) :
    ∃ w, l = rstripChars l ++ w ∧ ∀ c ∈ w, isSpace c = true := by
  obtain ⟨w, hw, hws⟩ := dropWs_decomp l.reverse
  refine ⟨w.reverse, ?_, fun c hc => hws c (List.mem_reverse.mp hc)⟩
  have := congrArg List.reverse hw
  rw [List.reverse_reverse, List.reverse_append] at this
  exact this

/-- Every line splits as leading whitespace, its stripped core, and
trailing whitespace. -/
theorem strip_decomp (l : List Char) :
    ∃ w1 w2, l = w1 ++ stripChars l ++ w2 ∧
      (∀ c ∈ w1, isSpace c = true) ∧ ∀ c ∈ w2, isSpace c = true := by
  obtain ⟨w2, h2, hws2⟩ := rstrip_decomp l
  obtain ⟨w1, h1, hws1⟩ := dropWs_decomp (rstripChars l)
  refine ⟨w1, w2, ?_, hws1, hws2⟩
  conv_lhs => rw [h2, h1]
  simp [stripChars, List.append_assoc]

/-- Block-comment removal passes over a region with no `/*` in it and no
`*` right behind it. -/
theorem stripBlock_append_free {a : List Char} (b : List Char)
    (ha : hasPair '/' '*' a = false)
    (hb : ∀ x, b.head? = some x → ¬ x = '*') :
    stripBlock (a ++ b) = a ++ stripBlock b := by
  induction a with
  | nil => simp
  | cons c a' ih =>
    have hcond : ¬ (c = '/' ∧ (a' ++ b).head? = some '*') := by
      rintro ⟨hc, hh⟩
      cases a' with
      | nil => exact hb '*' (by simpa using hh) rfl
      | cons y a'' =>
        rw [hasPair_cons] at ha
        simp only [List.cons_append, List.head?_cons, Option.some.injEq] at hh
        simp [hc, hh] at ha
    have ha' : hasPair '/' '*' a' = false := by
      cases a' with
      | nil => rfl
      | cons y a'' =>
        rw [hasPair_cons] at ha
        exact (Bool.or_eq_false_iff.mp ha).2
    rw [List.cons_append, stripBlock_cons hcond, ih ha']
    simp

/-- Newline-free whitespace never contains the characters that matter to
any of the scanners, so in particular no `/*`. -/
theorem hasPair_false_of_all {a b : Char} {l : List Char}
    (h : ∀ c ∈ l, ¬ c = a) : hasPair a b l = false := by
  induction l with
  | nil => rfl
  | cons x rest ih =>
    cases rest with
    | nil => rfl
    | cons y rest' =>
      rw [hasPair_cons]
      have hx : ¬ x = a := h x (by simp)
      have hr : ∀ c ∈ y :: rest', ¬ c = a := fun c hc => h c (by simp [hc])
      simp [hx, ih hr]

/-- Line-comment removal leaves a `//`-free line unchanged. -/
theorem cutLineComment_free {l : List Char} (h : hasPair '/' '/' l = false) :
    cutLineComment l = l := by
  induction l with
  | nil => rfl
  | cons c rest ih =>
    have hcond : ¬ (c = '/' ∧ rest.head? = some '/') := by
      rintro ⟨hc, hh⟩
      cases rest with
      | nil => simp at hh
      | cons y rest' =>
        rw [hasPair_cons] at h
        simp only [List.head?_cons, Option.some.injEq] at hh
        simp [hc, hh] at h
    have h' : hasPair '/' '/' rest = false := by
      cases rest with
      | nil => rfl
      | cons y rest' =>
        rw [hasPair_cons] at h
        exact (Bool.or_eq_false_iff.mp h).2
    rw [cutLineComment, if_neg hcond, ih h']

/-- Line-comment removal cuts a line at its first `//`. -/
theorem cutLineComment_at {w : List Char} (rest : List Char)
    (hw : ∀ c ∈ w, ¬ c = '/') :
    cutLineComment (w ++ '/' :: '/' :: rest) = w := by
  induction w with
  | nil => rw [List.nil_append, cutLineComment, if_pos ⟨rfl, rfl⟩]
  | cons c w' ih =>
    have hc : ¬ (c = '/' ∧ (w' ++ '/' :: '/' :: rest).head? = some '/') :=
      fun hp => hw c (by simp) hp.1
    rw [List.cons_append, cutLineComment, if_neg hc,
      ih (fun x hx => hw x (by simp [hx]))]

/-! Lemmas about `splitNl` and `joinNl`. -/

theorem splitNl_ne_nil (s : List Char) : splitNl s ≠ [] := by
  cases s with
  | nil => simp [splitNl]
  | cons c rest =>
    by_cases h : c = '\n'
    · simp [splitNl, h]
    · simp only [splitNl, if_neg h]
      cases splitNl rest <;> simp

theorem splitNl_no_nl {l : List Char} (h : ∀ c ∈ l, ¬ c = '\n') :
    splitNl l = [l] := by
  induction l with
  | nil => rfl
  | cons c rest ih =>
    have hc : ¬ c = '\n' := h c (by simp)
    rw [splitNl, if_neg hc, ih (fun x hx => h x (by simp [hx]))]

theorem splitNl_append_nl {l : List Char} (rest : List Char)
    (h : ∀ c ∈ l, ¬ c = '\n') :
    splitNl (l ++ '\n' :: rest) = l :: splitNl rest := by
  induction l with
  | nil => simp [splitNl]
  | cons c l' ih =>
    have hc : ¬ c = '\n' := h c (by simp)
    rw [List.cons_append, splitNl, if_neg hc,
      ih (fun x hx => h x (by simp [hx]))]

theorem joinNl_cons {l : List Char} {ls : List (List Char)} (h : ls ≠ []) :
    joinNl (l :: ls) = l ++ '\n' :: joinNl ls := by
  cases ls with
  | nil => exact absurd rfl h
  | cons l' ls' => rfl

/-- `re.sub(r'//.*$', ...)` acts line by line. -/
theorem stripLineComments_step {l : List Char} (rest : List Char)
    (h : ∀ c ∈ l, ¬ c = '\n') :
    stripLineComments (l ++ '\n' :: rest) =
      cutLineComment l ++ '\n' :: stripLineComments rest := by
  unfold stripLineComments
  rw [splitNl_append_nl rest h, List.map_cons,
    joinNl_cons (by simp [splitNl_ne_nil rest])]

theorem stripLineComments_single {l : List Char} (h : ∀ c ∈ l, ¬ c = '\n') :
    stripLineComments l = cutLineComment l := by
  unfold stripLineComments
  rw [splitNl_no_nl h, List.map_cons, List.map_nil, joinNl]

/-! Append stability of the statement matcher: a successful match is
unaffected by text appended after the input (all the greedy munches
inside a successful match stop at a character that is still present). -/

theorem munchToken_append {a : List Char} (b : List Char)
    (h : (munchToken a).2.head? = some '"') :
    munchToken (a ++ b) = ((munchToken a).1, (munchToken a).2 ++ b) := by
  induction a using munchToken.induct with
  | case1 => simp [munchToken_nil] at h
  | case2 rest => simp [munchToken_quote, List.cons_append]
  | case3 hq => simp [munchToken_bs_nil] at h
  | case4 rest hq => simp [munchToken_bs_nl] at h
  | case5 d rest2 hd hq ih =>
    have hmt := munchToken_bs_pair rest2 hd
    rw [hmt] at h
    have hb := ih h
    rw [List.cons_append, List.cons_append, munchToken_bs_pair (rest2 ++ b) hd,
      hb, hmt]
  | case6 c rest h1 h2 ih =>
    have hmt := munchToken_plain rest h1 h2
    rw [hmt] at h
    have hb := ih h
    rw [List.cons_append, munchToken_plain (rest ++ b) h1 h2, hb, hmt]

/-- What a successful quoted-token match means. -/
theorem matchQuoted_some_iff {s t r : List Char} :
    matchQuoted s = some (t, r) ↔
      ∃ rest, s = '"' :: rest ∧ munchToken rest = (t, '"' :: r) := by
  cases s with
  | nil => simp [matchQuoted]
  | cons c rest =>
    by_cases hc : c = '"'
    · subst hc
      simp only [matchQuoted, if_true, List.cons.injEq, true_and]
      constructor
      · intro h
        refine ⟨rest, rfl, ?_⟩
        cases hp : (munchToken rest).2 with
        | nil => rw [hp] at h; exact absurd h (by simp)
        | cons d r2 =>
          rw [hp] at h
          dsimp only at h
          by_cases hd : d = '"'
          · subst hd
            rw [if_pos rfl] at h
            simp only [Option.some.injEq, Prod.mk.injEq] at h
            have hpair : munchToken rest = ((munchToken rest).1, (munchToken rest).2) := rfl
            rw [hpair, hp, h.1, h.2]
          · rw [if_neg hd] at h; exact absurd h (by simp)
      · rintro ⟨rest', hr, hm⟩
        subst hr
        rw [hm]
        dsimp only
        rw [if_pos rfl]
    · simp only [matchQuoted, if_neg hc]
      constructor
      · intro h; exact absurd h (by simp)
      · rintro ⟨rest', hr, -⟩
        exact absurd (congrArg List.head? hr) (by simp [hc])

theorem matchQuoted_append {a t r : List Char} (b : List Char)
    (h : matchQuoted a = some (t, r)) :
    matchQuoted (a ++ b) = some (t, r ++ b) := by
  obtain ⟨rest, hs, hm⟩ := matchQuoted_some_iff.mp h
  subst hs
  apply matchQuoted_some_iff.mpr
  refine ⟨rest ++ b, by simp, ?_⟩
  have hh : (munchToken rest).2.head? = some '"' := by rw [hm]; rfl
  rw [munchToken_append b hh, hm]
  rfl

theorem dropWs_append {a : List Char} (b : List Char) (h : dropWs a ≠ []) :
    dropWs (a ++ b) = dropWs a ++ b := by
  induction a with
  | nil => exact absurd rfl h
  | cons c rest ih =>
    by_cases hs : isSpace c = true
    · rw [dropWs, if_pos hs] at h
      rw [List.cons_append, dropWs, if_pos hs, ih h, dropWs, if_pos hs]
    · rw [List.cons_append, dropWs, if_neg hs, dropWs, if_neg hs]
      rfl

theorem expectChar_eq {c : Char} {s r : List Char} (h : expectChar c s = some r) :
    s = c :: r := by
  cases s with
  | nil => simp [expectChar] at h
  | cons d rest =>
    by_cases hd : d = c
    · subst hd
      simp only [expectChar, if_true, Option.some.injEq] at h
      rw [h]
    · rw [expectChar, if_neg hd] at h
      exact absurd h (by simp)

theorem expectChar_cons_self (c : Char) (r : List Char) :
    expectChar c (c :: r) = some r := by
  simp [expectChar]

theorem matchQuoted_ne_nil {s : List Char} {t r : List Char}
    (h : matchQuoted s = some (t, r)) : s ≠ [] := by
  intro hs
  subst hs
  simp [matchQuoted] at h

/-- What a successful statement match means, spelled out through the
sequence of sub-matches. -/
theorem matchPair_some_iff {s : List Char} {k v : String} {r : List Char} :
    matchPair s = some (k, v, r) ↔
      ∃ kk r1 r3 vv r5,
        matchQuoted s = some (kk, r1) ∧ dropWs r1 = '=' :: r3 ∧
        matchQuoted (dropWs r3) = some (vv, r5) ∧ dropWs r5 = ';' :: r ∧
        k = String.mk kk ∧ v = String.mk vv := by
  constructor
  · intro h
    unfold matchPair at h
    split at h
    · exact absurd h (by simp)
    next kk r1 h1 =>
      split at h
      · exact absurd h (by simp)
      next r3 h2 =>
        split at h
        · exact absurd h (by simp)
        next vv r5 h3 =>
          split at h
          · exact absurd h (by simp)
          next r7 h4 =>
            simp only [Option.some.injEq, Prod.mk.injEq] at h
            obtain ⟨hk, hv, hr⟩ := h
            exact ⟨kk, r1, r3, vv, r5, h1, expectChar_eq h2, h3,
              hr ▸ expectChar_eq h4, hk.symm, hv.symm⟩
  · rintro ⟨kk, r1, r3, vv, r5, h1, h2, h3, h4, hk, hv⟩
    unfold matchPair
    rw [h1]
    dsimp only
    rw [h2, expectChar_cons_self]
    dsimp only
    rw [h3]
    dsimp only
    rw [h4, expectChar_cons_self]
    dsimp only
    rw [hk, hv]

theorem matchPair_append {a : List Char} {k v : String} {r : List Char}
    (b : List Char) (h : matchPair a = some (k, v, r)) :
    matchPair (a ++ b) = some (k, v, r ++ b) := by
  obtain ⟨kk, r1, r3, vv, r5, h1, h2, h3, h4, hk, hv⟩ := matchPair_some_iff.mp h
  apply matchPair_some_iff.mpr
  have hne1 : dropWs r1 ≠ [] := by rw [h2]; simp
  have hne3 : dropWs r3 ≠ [] := matchQuoted_ne_nil h3
  have hne5 : dropWs r5 ≠ [] := by rw [h4]; simp
  refine ⟨kk, r1 ++ b, r3 ++ b, vv, r5 ++ b,
    matchQuoted_append b h1, ?_, ?_, ?_, hk, hv⟩
  · rw [dropWs_append b hne1, h2]; rfl
  · rw [dropWs_append b hne3]
    exact matchQuoted_append b h3
  · rw [dropWs_append b hne5, h4]; rfl


/-! ## Agreement of the two parsers on one-statement-per-line content -/

/-- The key/value pair contributed by a line whose stripped form is
exactly one whole statement. -/
def stmtLine? (l : List Char) : Option (String × String) :=
  match matchPair (stripChars l) with
  | some (k, v, r) => if r = [] then some (k, v) else none
  | none => none

/-- Lines on which the two parsers are proved to agree below: the line is
newline-free and its stripped form is empty, a line comment containing no
`/*`, a block comment opened and closed on this line with its first `*/`
at the very end, or exactly one whole statement containing neither `/*`
nor `//`. -/
def agreeLine (l : List Char) : Bool :=
  (l.all fun c => !(c == '\n')) &&
  (decide (stripChars l = []) ||
   (startsWithPair '/' '/' (stripChars l) && !(hasPair '/' '*' (stripChars l))) ||
   (startsWithPair '/' '*' (stripChars l) &&
     (splitCloseCom ((stripChars l).drop 2) == some [])) ||
   ((match matchPair (stripChars l) with
     | some (_, _, r) => decide (r = [])
     | none => false) &&
    !(hasPair '/' '*' (stripChars l)) && !(hasPair '/' '/' (stripChars l))))

theorem startsWithPair_iff {a b : Char} {s : List Char} :
    startsWithPair a b s = true ↔ ∃ t, s = a :: b :: t := by
  cases s with
  | nil => simp [startsWithPair]
  | cons x rest =>
    cases rest with
    | nil => simp [startsWithPair]
    | cons y t =>
      simp only [startsWithPair, Bool.and_eq_true, decide_eq_true_eq]
      constructor
      · rintro ⟨hx, hy⟩
        exact ⟨t, by rw [hx, hy]⟩
      · rintro ⟨t', ht⟩
        cases ht
        exact ⟨rfl, rfl⟩

theorem findPairs_append_ws {w : List Char} (x : List Char)
    (hw : ∀ c ∈ w, isSpace c = true) : findPairs (w ++ x) = findPairs x := by
  induction w with
  | nil => rfl
  | cons c w' ih =>
    have hc : ¬ c = '"' := (isSpace_facts (hw c (by simp))).1
    rw [List.cons_append, findPairs_cons_skip _ hc,
      ih (fun d hd => hw d (by simp [hd]))]

theorem findPairs_cons_nl (x : List Char) : findPairs ('\n' :: x) = findPairs x :=
  findPairs_cons_skip x (by decide)

theorem findPairs_stmt {s : List Char} {k v : String} (x : List Char)
    (h : matchPair s = some (k, v, [])) :
    findPairs (s ++ x) = (k, v) :: findPairs x := by
  have hx := matchPair_append x h
  rw [List.nil_append] at hx
  exact findPairs_cons_some hx

theorem hasPair_append_false {a b : Char} {x y : List Char}
    (hx : hasPair a b x = false) (hy : hasPair a b y = false)
    (hxy : ∀ c d, x.getLast? = some c → y.head? = some d → ¬ (c = a ∧ d = b)) :
    hasPair a b (x ++ y) = false := by
  induction x with
  | nil => simpa using hy
  | cons c x' ih =>
    cases x' with
    | nil =>
      cases y with
      | nil => rfl
      | cons d y' =>
        have h1 : ¬ (c = a ∧ d = b) := hxy c d rfl rfl
        rw [List.cons_append, List.nil_append, hasPair_cons]
        by_cases hc : c = a
        · have hd : ¬ d = b := fun hdb => h1 ⟨hc, hdb⟩
          simp [hc, hd, hy]
        · simp [hc, hy]
    | cons e x'' =>
      rw [hasPair_cons] at hx
      obtain ⟨hx1, hx2⟩ := Bool.or_eq_false_iff.mp hx
      have ihx := ih hx2 (fun c' d' hl hh =>
        hxy c' d' (by rw [List.getLast?_cons_cons]; exact hl) hh)
      rw [List.cons_append] at ihx
      rw [List.cons_append, List.cons_append, hasPair_cons]
      simp [hx1, ihx]

/-- The all-whitespace residue facts used by several line kinds. -/
theorem ws_no_slash {w : List Char} (hw : ∀ c ∈ w, isSpace c = true) :
    ∀ c ∈ w, ¬ c = '/' :=
  fun c hc => (isSpace_facts (hw c hc)).2.1

/-- One `agreeLine` line contributes, through the validator's entire
pipeline, exactly its statement (if it has one): over any continuation
that does not begin with `*`, the block-comment strip turns the line into
a newline-free residue, the line-comment strip reduces that residue
further, and the statement scan then reads off the contribution and moves
on. -/
theorem agreeLine_contrib {l : List Char} (hl : agreeLine l = true) :
    ∃ res res2,
      (∀ b : List Char, (∀ x, b.head? = some x → ¬ x = '*') →
        stripBlock (l ++ b) = res ++ stripBlock b) ∧
      (∀ c ∈ res, ¬ c = '\n') ∧
      cutLineComment res = res2 ∧
      ∀ y : List Char, findPairs (res2 ++ y) = (stmtLine? l).toList ++ findPairs y := by
  obtain ⟨w1, w2, hdecomp, hw1, hw2⟩ := strip_decomp l
  unfold agreeLine at hl
  simp only [Bool.and_eq_true, Bool.or_eq_true, List.all_eq_true,
    Bool.not_eq_true', beq_eq_false_iff_ne, ne_eq, decide_eq_true_eq,
    beq_iff_eq] at hl
  obtain ⟨hnl, hkinds⟩ := hl
  have hnl' : ∀ c ∈ l, ¬ c = '\n' := hnl
  rcases hkinds with ((hempty | ⟨hsw, hnostar⟩) | ⟨hsw, hclose⟩) | ⟨⟨hm, hnostar⟩, hnoslash⟩
  · -- empty line: the whole line is whitespace
    have hws : ∀ c ∈ l, isSpace c = true := by
      intro c hc
      rw [hdecomp, hempty] at hc
      simp only [List.append_nil, List.nil_append, List.mem_append] at hc
      rcases hc with hc | hc
      · exact hw1 c hc
      · exact hw2 c hc
    have hnop : hasPair '/' '*' l = false := hasPair_false_of_all (ws_no_slash hws)
    have hnos : hasPair '/' '/' l = false := hasPair_false_of_all (ws_no_slash hws)
    refine ⟨l, l, fun b hb => stripBlock_append_free b hnop hb, hnl',
      cutLineComment_free hnos, fun y => ?_⟩
    have : stmtLine? l = none := by
      unfold stmtLine?
      rw [hempty, matchPair_nil]
    rw [this, findPairs_append_ws y hws, Option.toList_none, List.nil_append]
  · -- line comment: cut back to the leading whitespace
    obtain ⟨u, hs⟩ := startsWithPair_iff.mp hsw
    have hb1 : hasPair '/' '*' (stripChars l ++ w2) = false := by
      refine hasPair_append_false (Bool.not_eq_true _ ▸ (by simpa using hnostar))
        (hasPair_false_of_all (ws_no_slash hw2)) ?_
      intro c d hc hd hcd
      exact (isSpace_facts (hw2 d (List.mem_of_mem_head? (by rw [hd]; rfl)))).2.2 hcd.2
    have hb2 : hasPair '/' '*' l = false := by
      conv_lhs => rw [hdecomp, List.append_assoc]
      refine hasPair_append_false (hasPair_false_of_all (ws_no_slash hw1)) hb1 ?_
      intro c d hc hd hcd
      exact ws_no_slash hw1 c (List.mem_of_mem_getLast? (by rw [hc]; rfl)) hcd.1
    have hcut : cutLineComment l = w1 := by
      conv_lhs => rw [hdecomp, hs]
      rw [List.append_assoc, List.cons_append, List.cons_append]
      exact cutLineComment_at _ (ws_no_slash hw1)
    refine ⟨l, w1, fun b hb => stripBlock_append_free b hb2 hb, hnl', hcut,
      fun y => ?_⟩
    have : stmtLine? l = none := by
      unfold stmtLine?
      rw [hs, matchPair_none_of_head _ (by decide)]
    rw [this, findPairs_append_ws y hw1, Option.toList_none, List.nil_append]
  · -- block comment opened and closed on this line
    obtain ⟨t, hs⟩ := startsWithPair_iff.mp hsw
    have hclose' : splitCloseCom t = some [] := by
      have := hclose
      rw [hs] at this
      simpa using this
    have hres : ∀ c ∈ w1 ++ w2, isSpace c = true := by
      intro c hc
      rcases List.mem_append.mp hc with hc | hc
      · exact hw1 c hc
      · exact hw2 c hc
    refine ⟨w1 ++ w2, w1 ++ w2, fun b hb => ?_, ?_, cutLineComment_free
      (hasPair_false_of_all (ws_no_slash hres)), fun y => ?_⟩
    · conv_lhs => rw [hdecomp, hs]
      rw [List.append_assoc, List.append_assoc, List.cons_append, List.cons_append,
        stripBlock_append_free _ (hasPair_false_of_all (ws_no_slash hw1))
          (by intro x hx; simp only [List.head?_cons, Option.some.injEq] at hx
              subst hx; decide)]
      rw [stripBlock_open_some (splitCloseCom_append _ hclose'), List.nil_append,
        stripBlock_append_free b (hasPair_false_of_all (ws_no_slash hw2)) hb,
        List.append_assoc]
    · intro c hc
      apply hnl' c
      rw [hdecomp]
      rcases List.mem_append.mp hc with hc | hc
      · simp [hc]
      · simp [hc]
    · have : stmtLine? l = none := by
        unfold stmtLine?
        rw [hs, matchPair_none_of_head _ (by decide)]
      rw [this, findPairs_append_ws y hres, Option.toList_none, List.nil_append]
  · -- a whole single statement
    obtain ⟨k, v, r, hm'⟩ : ∃ k v r, matchPair (stripChars l) = some (k, v, r) := by
      cases hmm : matchPair (stripChars l) with
      | none => rw [hmm] at hm; exact absurd hm (by simp)
      | some kvr =>
        obtain ⟨k1, v1, r1⟩ := kvr
        exact ⟨k1, v1, r1, rfl⟩
    have hr : r = [] := by
      rw [hm'] at hm
      simpa using hm
    subst hr
    have hshead : ∃ srest, stripChars l = '"' :: srest := by
      cases hsc : stripChars l with
      | nil => rw [hsc, matchPair_nil] at hm'; exact absurd hm' (by simp)
      | cons c srest =>
        by_cases hc : c = '"'
        · exact ⟨srest, by rw [hc]⟩
        · rw [hsc, matchPair_none_of_head _ hc] at hm'
          exact absurd hm' (by simp)
    have hstmt : stmtLine? l = some (k, v) := by
      unfold stmtLine?
      rw [hm']
      simp
    have hb1 : hasPair '/' '*' (stripChars l ++ w2) = false := by
      refine hasPair_append_false (by simpa using hnostar)
        (hasPair_false_of_all (ws_no_slash hw2)) ?_
      intro c d hc hd hcd
      exact (isSpace_facts (hw2 d (List.mem_of_mem_head? (by rw [hd]; rfl)))).2.2 hcd.2
    have hb2 : hasPair '/' '*' l = false := by
      conv_lhs => rw [hdecomp, List.append_assoc]
      refine hasPair_append_false (hasPair_false_of_all (ws_no_slash hw1)) hb1 ?_
      intro c d hc hd hcd
      exact ws_no_slash hw1 c (List.mem_of_mem_getLast? (by rw [hc]; rfl)) hcd.1
    have hc1 : hasPair '/' '/' (stripChars l ++ w2) = false := by
      refine hasPair_append_false (by simpa using hnoslash)
        (hasPair_false_of_all (ws_no_slash hw2)) ?_
      intro c d hc hd hcd
      exact (isSpace_facts (hw2 d (List.mem_of_mem_head? (by rw [hd]; rfl)))).2.1 hcd.2
    have hc2 : hasPair '/' '/' l = false := by
      conv_lhs => rw [hdecomp, List.append_assoc]
      refine hasPair_append_false (hasPair_false_of_all (ws_no_slash hw1)) hc1 ?_
      intro c d hc hd hcd
      exact ws_no_slash hw1 c (List.mem_of_mem_getLast? (by rw [hc]; rfl)) hcd.1
    refine ⟨l, l, fun b hb => stripBlock_append_free b hb2 hb, hnl',
      cutLineComment_free hc2, fun y => ?_⟩
    conv_lhs => rw [hdecomp, List.append_assoc, List.append_assoc]
    rw [findPairs_append_ws _ hw1, findPairs_stmt _ hm', findPairs_append_ws y hw2,
      hstmt]
    rfl

/-- The validator's statement list for a content: comment strips followed
by the `re.finditer` scan (the pair list `Validate.parseContent` folds
over). -/
def vScan (content : List Char) : List (String × String) :=
  findPairs (stripLineComments (stripBlock content))

/-- The duplicate-key error messages produced while folding a pair list
into a dict that already has the keys of `d`. -/
def dupErrs (d : List (String × String)) : List (String × String) → List String
  | [] => []
  | kv :: rest =>
    (if containsKey d kv.1 then ["Duplicate key: " ++ kv.1] else [])
      ++ dupErrs (pyInsert d kv.1 kv.2) rest

theorem parse_fold (pairs : List (String × String))
    (d : List (String × String)) (e : List String) :
    pairs.foldl
      (fun acc kv =>
        ( pyInsert acc.1 kv.1 kv.2,
          if containsKey acc.1 kv.1 then acc.2 ++ ["Duplicate key: " ++ kv.1]
          else acc.2))
      (d, e) =
    (pairs.foldl (fun acc kv => pyInsert acc kv.1 kv.2) d, e ++ dupErrs d pairs) := by
  induction pairs generalizing d e with
  | nil => simp [dupErrs]
  | cons kv rest ih =>
    rw [List.foldl_cons, List.foldl_cons]
    by_cases hc : containsKey d kv.1 = true
    · rw [show (pyInsert d kv.1 kv.2,
          if containsKey d kv.1 then e ++ ["Duplicate key: " ++ kv.1] else e) =
          (pyInsert d kv.1 kv.2, e ++ ["Duplicate key: " ++ kv.1]) from by rw [if_pos hc]]
      rw [ih]
      rw [show dupErrs d (kv :: rest) =
        ["Duplicate key: " ++ kv.1] ++ dupErrs (pyInsert d kv.1 kv.2) rest from by
          rw [dupErrs, if_pos hc]]
      simp [List.append_assoc]
    · rw [show (pyInsert d kv.1 kv.2,
          if containsKey d kv.1 then e ++ ["Duplicate key: " ++ kv.1] else e) =
          (pyInsert d kv.1 kv.2, e) from by rw [if_neg hc]]
      rw [ih]
      rw [show dupErrs d (kv :: rest) = dupErrs (pyInsert d kv.1 kv.2) rest from by
        rw [dupErrs, if_neg hc]; simp]

theorem validate_parseContent_eq (c : List Char) :
    Validate.parseContent c =
      ((vScan c).foldl (fun acc kv => pyInsert acc kv.1 kv.2) [],
       dupErrs [] (vScan c)) := by
  unfold Validate.parseContent vScan
  rw [parse_fold]
  rw [List.nil_append]

/-- What the validator's pipeline makes of content given as agreeing
lines: exactly the statements of the statement lines, in order. -/
theorem vScan_joinNl {lines : List (List Char)} (hne : lines ≠ [])
    (h : ∀ l ∈ lines, agreeLine l = true) :
    vScan (joinNl lines) = lines.filterMap stmtLine? := by
  induction lines with
  | nil => exact absurd rfl hne
  | cons l rest ih =>
    have hl := h l (by simp)
    obtain ⟨res, res2, hB, hres, hC, hF⟩ := agreeLine_contrib hl
    cases rest with
    | nil =>
      unfold vScan
      have h1 : stripBlock l = res := by
        have hb := hB [] (by simp)
        rw [List.append_nil, stripBlock_nil, List.append_nil] at hb
        exact hb
      rw [show joinNl [l] = l from rfl, h1, stripLineComments_single hres, hC]
      have hf := hF []
      rw [List.append_nil, findPairs_nil, List.append_nil] at hf
      rw [hf]
      cases hst : stmtLine? l <;> simp [hst]
    | cons l2 rest2 =>
      rw [joinNl_cons (by simp)]
      unfold vScan
      rw [hB ('\n' :: joinNl (l2 :: rest2))
        (by intro x hx; simp only [List.head?_cons, Option.some.injEq] at hx
            subst hx; decide)]
      rw [stripBlock_cons (by rintro ⟨h1, -⟩; exact absurd h1 (by decide))]
      rw [stripLineComments_step _ hres, hC,
        hF ('\n' :: stripLineComments (stripBlock (joinNl (l2 :: rest2)))),
        findPairs_cons_nl, List.filterMap_cons]
      have ihh := ih (by simp) (fun x hx => h x (by simp [hx]))
      unfold vScan at ihh
      rw [ihh]
      cases hst : stmtLine? l <;> simp [hst]

/-- The pair the syncer's line loop records for one line. -/
def syncStmt? (l : List Char) : Option (String × String) :=
  if startsWithPair '/' '*' (stripChars l) || startsWithPair '/' '/' (stripChars l)
  then none
  else
    match matchPair (stripChars l) with
    | some (k, v, _) => some (k, v)
    | none => none

theorem sync_parseContent_eq (c : List Char) :
    Sync.parseContent c =
      (((splitNl c).filterMap syncStmt?).foldl
         (fun acc kv => pyInsert acc kv.1 kv.2) [],
       (splitNl c).filterMap syncStmt?) := by
  unfold Sync.parseContent
  suffices hgen : ∀ (LS : List (List Char)) (d : List (String × String))
      (e : List (String × String)),
      LS.foldl
        (fun acc line =>
          let stripped := stripChars line
          if startsWithPair '/' '*' stripped || startsWithPair '/' '/' stripped
          then acc
          else
            match matchPair stripped with
            | some (k, v, _) => (pyInsert acc.1 k v, acc.2 ++ [(k, v)])
            | none => acc)
        (d, e) =
      ((LS.filterMap syncStmt?).foldl (fun acc kv => pyInsert acc kv.1 kv.2) d,
       e ++ LS.filterMap syncStmt?) by
    rw [hgen]
    rw [List.nil_append]
  intro LS
  induction LS with
  | nil => intro d e; simp
  | cons l rest ih =>
    intro d e
    rw [List.foldl_cons, List.filterMap_cons]
    by_cases hcm : (startsWithPair '/' '*' (stripChars l)
        || startsWithPair '/' '/' (stripChars l)) = true
    · have hst : syncStmt? l = none := by
        unfold syncStmt?
        rw [if_pos hcm]
      rw [hst]
      dsimp only
      rw [if_pos hcm, ih d e]
    · have hcm' := hcm
      rw [Bool.not_eq_true] at hcm'
      cases hmp : matchPair (stripChars l) with
      | none =>
        have hst : syncStmt? l = none := by
          unfold syncStmt?
          rw [if_neg hcm, hmp]
        rw [hst]
        dsimp only
        rw [if_neg hcm, hmp, ih d e]
      | some kvr =>
        obtain ⟨k, v, r⟩ := kvr
        have hst : syncStmt? l = some (k, v) := by
          unfold syncStmt?
          rw [if_neg hcm, hmp]
        rw [hst]
        dsimp only
        rw [if_neg hcm, hmp, ih]
        rw [List.foldl_cons]
        simp [List.append_assoc]

/-- A statement match always starts at a quote. -/
theorem matchPair_head {s : List Char} {k v : String} {r : List Char}
    (h : matchPair s = some (k, v, r)) : ∃ rest, s = '"' :: rest := by
  obtain ⟨kk, r1, -, -, -, h1, -⟩ := matchPair_some_iff.mp h
  obtain ⟨rest, hs, -⟩ := matchQuoted_some_iff.mp h1
  exact ⟨rest, hs⟩

theorem startsWithPair_quote {a b : Char} (ha : ¬ a = '"') {rest : List Char} :
    startsWithPair a b ('"' :: rest) = false := by
  cases rest with
  | nil => rfl
  | cons y t =>
    simp only [startsWithPair, Bool.and_eq_false_iff, decide_eq_false_iff_not]
    exact Or.inl (fun hq => ha hq.symm)

/-- On an `agreeLine` line the syncer records exactly the validator's
contribution. -/
theorem agree_stmt_eq {l : List Char} (hl : agreeLine l = true) :
    syncStmt? l = stmtLine? l := by
  unfold syncStmt? stmtLine?
  cases hmp : matchPair (stripChars l) with
  | none => split <;> rfl
  | some kvr =>
    obtain ⟨k, v, r⟩ := kvr
    obtain ⟨rest, hs⟩ := matchPair_head hmp
    rw [hs, startsWithPair_quote (by decide), startsWithPair_quote (by decide)]
    rw [Bool.or_self, if_neg (by simp)]
    dsimp only
    -- it remains to see that the recorded rest is empty on agree lines
    have hr : r = [] := by
      unfold agreeLine at hl
      simp only [Bool.and_eq_true, Bool.or_eq_true, decide_eq_true_eq,
        beq_iff_eq] at hl
      rcases hl.2 with ((he | ⟨hsw, -⟩) | ⟨hsw, -⟩) | ⟨⟨hm, -⟩, -⟩
      · rw [he, matchPair_nil] at hmp; exact absurd hmp (by simp)
      · rw [startsWithPair_iff] at hsw
        obtain ⟨t, ht⟩ := hsw
        rw [ht] at hs
        exact absurd (congrArg List.head? hs) (by simp)
      · rw [startsWithPair_iff] at hsw
        obtain ⟨t, ht⟩ := hsw
        rw [ht] at hs
        exact absurd (congrArg List.head? hs) (by simp)
      · rw [hmp] at hm
        simpa using hm
    rw [hr]
    simp

theorem agreeLine_no_nl {l : List Char} (hl : agreeLine l = true) :
    ∀ c ∈ l, ¬ c = '\n' := by
  unfold agreeLine at hl
  simp only [Bool.and_eq_true, List.all_eq_true, Bool.not_eq_true',
    beq_eq_false_iff_ne, ne_eq] at hl
  exact hl.1

theorem splitNl_joinNl {lines : List (List Char)} (hne : lines ≠ [])
    (h : ∀ l ∈ lines, ∀ c ∈ l, ¬ c = '\n') :
    splitNl (joinNl lines) = lines := by
  induction lines with
  | nil => exact absurd rfl hne
  | cons l rest ih =>
    cases rest with
    | nil => exact splitNl_no_nl (h l (by simp))
    | cons l2 rest2 =>
      rw [joinNl_cons (by simp), splitNl_append_nl _ (h l (by simp)),
        ih (by simp) (fun x hx => h x (by simp [hx]))]

theorem filterMap_congr' {α β : Type} {f g : α → Option β} :
    ∀ {l : List α}, (∀ x ∈ l, f x = g x) → l.filterMap f = l.filterMap g
  | [], _ => rfl
  | x :: xs, h => by
    rw [List.filterMap_cons, List.filterMap_cons, h x (by simp),
      filterMap_congr' (fun y hy => h y (by simp [hy]))]

theorem string_append_left_cancel {a k k' : String} (h : a ++ k = a ++ k') :
    k = k' := by
  obtain ⟨ad⟩ := a
  obtain ⟨kd⟩ := k
  obtain ⟨kd'⟩ := k'
  have hd := congrArg String.data h
  have hd' : ad ++ kd = ad ++ kd' := hd
  have := List.append_cancel_left hd'
  rw [this]

/-- Membership of a duplicate-key message in the error list produced by
the dict-building fold. -/
theorem mem_dupErrs {k : String} :
    ∀ (pairs : List (String × String)) (d : List (String × String)),
      (("Duplicate key: " ++ k) ∈ dupErrs d pairs ↔
        (containsKey d k = true ∧ k ∈ pairs.map Prod.fst) ∨
          2 ≤ (pairs.map Prod.fst).count k)
  | [], d => by simp [dupErrs]
  | kv :: rest, d => by
    obtain ⟨k1, v1⟩ := kv
    rw [dupErrs]
    have ih := mem_dupErrs (k := k) rest (pyInsert d k1 v1)
    rw [List.mem_append, ih, containsKey_insert]
    have hmsg : ("Duplicate key: " ++ k)
        ∈ (if containsKey d k1 = true then ["Duplicate key: " ++ k1] else []) ↔
        (containsKey d k1 = true ∧ k = k1) := by
      split
      · simp only [List.mem_singleton]
        constructor
        · intro hh
          exact ⟨by assumption, string_append_left_cancel hh⟩
        · rintro ⟨-, hh⟩
          rw [hh]
      · simp only [List.not_mem_nil, false_iff, not_and]
        intro hc
        exact absurd hc (by assumption)
    rw [hmsg]
    by_cases hb : k = k1
    · subst hb
      have hcnt : (List.map Prod.fst ((k, v1) :: rest)).count k =
          (rest.map Prod.fst).count k + 1 := by
        simp [List.count_cons]
      have hmem : k ∈ ((k, v1) :: rest).map Prod.fst := by simp
      have hcm : k ∈ rest.map Prod.fst ↔ 1 ≤ (rest.map Prod.fst).count k := by
        rw [List.one_le_count_iff]
      constructor
      · rintro (⟨hA, -⟩ | ⟨hA, hC⟩ | hn)
        · exact Or.inl ⟨hA, hmem⟩
        · rw [hcnt]
          exact Or.inr (by have := hcm.mp hC; omega)
        · rw [hcnt]
          exact Or.inr (by omega)
      · rintro (⟨hA, -⟩ | hn)
        · exact Or.inl ⟨hA, rfl⟩
        · rw [hcnt] at hn
          have h1 : 1 ≤ (rest.map Prod.fst).count k := by omega
          exact Or.inr (Or.inl ⟨by simp, hcm.mpr h1⟩)
    · have hb' : ¬ k1 = k := fun hh => hb hh.symm
      have hcnt : (List.map Prod.fst ((k1, v1) :: rest)).count k =
          (rest.map Prod.fst).count k := by
        simp only [List.map_cons]
        rw [List.count_cons]
        simp [hb']
      have hmem : k ∈ ((k1, v1) :: rest).map Prod.fst ↔ k ∈ rest.map Prod.fst := by
        simp [hb, hb']
      constructor
      · rintro (⟨-, hh⟩ | ⟨hA, hC⟩ | hn)
        · exact absurd hh hb
        · rw [Bool.or_eq_true] at hA
          rcases hA with h1 | h1
          · rw [decide_eq_true_eq] at h1
            exact absurd h1 hb'
          · exact Or.inl ⟨h1, hmem.mpr hC⟩
        · rw [hcnt]
          exact Or.inr hn
      · rintro (⟨hA, hC⟩ | hn)
        · exact Or.inr (Or.inl ⟨by simp [hA], hmem.mp hC⟩)
        · rw [hcnt] at hn
          exact Or.inr (Or.inr hn)

theorem option_or_none {α : Type} (x : Option α) : x.or none = x := by
  cases x <;> rfl

/-! ## Claims

Each claim of the specification is settled by one theorem below
(plus, where needed, a closed counterexample and a witness). -/

/-- C1: the claim as stated is false.  For the file content
`"dup"="1"; "dup"="2";` the validator reports the duplicate key, but the
lookup mapping holds `"2"`, the value of the later occurrence, not the
claimed `"1"` of the first occurrence. -/
theorem C1_counterexample :
    (Validate.parse_strings_file (.utf8 ("\"dup\"=\"1\"; \"dup\"=\"2\";".data))).2 =
        ["Duplicate key: dup"] ∧
    pyGet? (Validate.parse_strings_file
        (.utf8 ("\"dup\"=\"1\"; \"dup\"=\"2\";".data))).1 "dup" = some "2" ∧
    ¬ (some ("2" : String) = some "1") := by
  refine ⟨?_, ?_, ?_⟩ <;> decide

/-- C1 (amended): for every file content, the validator's parser reports
a structural error naming a key exactly when that key occurs in more than
one recognised statement, and the lookup mapping of both the validator's
and the syncer's parser retains the value of the last occurrence of each
key (the later occurrence overwrites the earlier one). -/
theorem C1_duplicate_handling (c : List Char) (k : String) :
    pyGet? (Validate.parseContent c).1 k = lastVal (vScan c) k ∧
    (("Duplicate key: " ++ k) ∈ (Validate.parseContent c).2 ↔
      2 ≤ ((vScan c).map Prod.fst).count k) ∧
    pyGet? (Sync.parseContent c).1 k = lastVal (Sync.parseContent c).2 k := by
  refine ⟨?_, ?_, ?_⟩
  · rw [validate_parseContent_eq]
    dsimp only
    rw [foldl_pyInsert_get]
    exact option_or_none _
  · rw [validate_parseContent_eq]
    dsimp only
    rw [mem_dupErrs]
    simp [containsKey]
  · rw [sync_parseContent_eq]
    dsimp only
    rw [foldl_pyInsert_get]
    exact option_or_none _

/-- C4: the claim as stated is false: the validator's and the syncer's
parsers produce different lookup mappings, e.g. for a statement spanning
two lines, a statement inside a multi-line block comment, a statement
whose value contains `//`, and two statements on one line. -/
theorem C4_counterexample :
    (Validate.parseContent ("\"a\" =\n\"1\";".data)).1 ≠
        (Sync.parseContent ("\"a\" =\n\"1\";".data)).1 ∧
    (Validate.parseContent ("/* x\n\"h\" = \"1\";\n*/".data)).1 ≠
        (Sync.parseContent ("/* x\n\"h\" = \"1\";\n*/".data)).1 ∧
    (Validate.parseContent ("\"b\" = \"http://u\";".data)).1 ≠
        (Sync.parseContent ("\"b\" = \"http://u\";".data)).1 ∧
    (Validate.parseContent ("\"a\" = \"1\"; \"b\" = \"2\";".data)).1 ≠
        (Sync.parseContent ("\"a\" = \"1\"; \"b\" = \"2\";".data)).1 := by
  refine ⟨?_, ?_, ?_, ?_⟩ <;> decide

/-- C4 (amended): on contents whose every line is newline-free and, after
stripping, empty, a `//` comment without `/*`, a block comment opened and
closed on that same line, or exactly one whole statement containing
neither `/*` nor `//`, the validator's parser and the syncer's parser
produce identical lookup mappings, and hence identical missing-key sets
for every key list. -/
theorem C4_parsers_agree_on_simple_lines (lines : List (List Char))
    (hne : lines ≠ []) (h : ∀ l ∈ lines, agreeLine l = true) :
    (Validate.parseContent (joinNl lines)).1 = (Sync.parseContent (joinNl lines)).1 ∧
    ∀ pk : List String,
      pk.filter (fun key => !(containsKey (Validate.parseContent (joinNl lines)).1 key)) =
        pk.filter (fun key => !(containsKey (Sync.parseContent (joinNl lines)).1 key)) := by
  have hd : (Validate.parseContent (joinNl lines)).1 =
      (Sync.parseContent (joinNl lines)).1 := by
    rw [validate_parseContent_eq, sync_parseContent_eq]
    dsimp only
    rw [vScan_joinNl hne h,
      splitNl_joinNl hne (fun l hl => agreeLine_no_nl (h l hl)),
      filterMap_congr' (fun l hl => agree_stmt_eq (h l hl))]
  exact ⟨hd, fun pk => by rw [hd]⟩

/-- Witness for the amended C4 at a concrete five-line file. -/
theorem C4_parsers_agree_witness :
    (Validate.parseContent (joinNl ["/* header */".data, "\"a\" = \"1\";".data,
        "".data, "// note".data, "\"b\" = \"2 %d\";".data])).1 =
      (Sync.parseContent (joinNl ["/* header */".data, "\"a\" = \"1\";".data,
        "".data, "// note".data, "\"b\" = \"2 %d\";".data])).1 ∧
    ∀ pk : List String,
      pk.filter (fun key => !(containsKey (Validate.parseContent
        (joinNl ["/* header */".data, "\"a\" = \"1\";".data, "".data,
          "// note".data, "\"b\" = \"2 %d\";".data])).1 key)) =
        pk.filter (fun key => !(containsKey (Sync.parseContent
          (joinNl ["/* header */".data, "\"a\" = \"1\";".data, "".data,
            "// note".data, "\"b\" = \"2 %d\";".data])).1 key)) :=
  C4_parsers_agree_on_simple_lines
    ["/* header */".data, "\"a\" = \"1\";".data, "".data, "// note".data,
      "\"b\" = \"2 %d\";".data]
    (by decide) (by decide)

/-! ## Lemmas: the sync loop -/

theorem syncLoop_nil (ps : List (String × String)) (pk : List String)
    (mode : Sync.Mode) (m : Module) (acc : List (String × Sync.LangEntry))
    (sy : List String) :
    Sync.syncLoop ps pk mode [] m acc sy = (.ok (acc, sy), m) := rfl

theorem syncLoop_cons (ps : List (String × String)) (pk : List String)
    (mode : Sync.Mode) (d : LprojDir) (rest : List LprojDir) (m : Module)
    (acc : List (String × Sync.LangEntry)) (sy : List String) :
    Sync.syncLoop ps pk mode (d :: rest) m acc sy =
      (if d.lang = "en" then Sync.syncLoop ps pk mode rest m acc sy
       else
        match d.strings_file with
        | none =>
          Sync.syncLoop ps pk mode rest m
            (pyInsert acc d.lang (.missingFile pk.length)) sy
        | some fd =>
          match Sync.read_text fd with
          | .error _ => (.error (), m)
          | .ok txt =>
            if mode = Sync.Mode.sync ∧ !(Sync.missingOf pk txt).isEmpty then
              Sync.syncLoop ps pk mode rest
                (Sync.writeFile m d.lang
                  (.utf8 (Sync.new_content txt ps (Sync.missingOf pk txt))))
                (pyInsert acc d.lang (Sync.statsEntry ps pk txt))
                (sy ++ [d.lang ++ ".lproj/Localizable.strings"])
            else Sync.syncLoop ps pk mode rest m
              (pyInsert acc d.lang (Sync.statsEntry ps pk txt)) sy) := by
  rw [Sync.syncLoop]

/-- Once a language's entry is in the accumulator and no remaining
directory carries that language, the final report keeps the entry. -/
theorem syncLoop_preserve {ps : List (String × String)} {pk : List String}
    {mode : Sync.Mode} :
    ∀ (dirs : List LprojDir) (m : Module) (acc : List (String × Sync.LangEntry))
      (sy : List String) (langs : List (String × Sync.LangEntry))
      (sy' : List String) (m' : Module) (L : String) (e : Sync.LangEntry),
      Sync.syncLoop ps pk mode dirs m acc sy = (.ok (langs, sy'), m') →
      pyGet? acc L = some e → (∀ d ∈ dirs, ¬ d.lang = L) →
      pyGet? langs L = some e := by
  intro dirs
  induction dirs with
  | nil =>
    intro m acc sy langs sy' m' L e h hacc _
    rw [syncLoop_nil] at h
    simp only [Prod.mk.injEq, Except.ok.injEq] at h
    rw [← h.1.1]
    exact hacc
  | cons d rest ih =>
    intro m acc sy langs sy' m' L e h hacc hnot
    have hdL : ¬ d.lang = L := hnot d (by simp)
    have hnot' : ∀ d' ∈ rest, ¬ d'.lang = L := fun d' hd' => hnot d' (by simp [hd'])
    rw [syncLoop_cons] at h
    split at h
    · exact ih m acc sy langs sy' m' L e h hacc hnot'
    · split at h
      · exact ih m _ sy langs sy' m' L e h
          (by rw [pyGet?_insert_ne _ d.lang L _ (fun hh => hdL hh.symm)]; exact hacc)
          hnot'
      · split at h
        · exact absurd h (by simp)
        · split at h
          · exact ih _ _ _ langs sy' m' L e h
              (by rw [pyGet?_insert_ne _ d.lang L _ (fun hh => hdL hh.symm)]; exact hacc)
              hnot'
          · exact ih m _ sy langs sy' m' L e h
              (by rw [pyGet?_insert_ne _ d.lang L _ (fun hh => hdL hh.symm)]; exact hacc)
              hnot'

/-- On a successful run, the report entry of each non-primary directory
is determined by that directory's file: `missingFile` when the file does
not exist, and the statistics entry computed from its text otherwise. -/
theorem syncLoop_lookup {ps : List (String × String)} {pk : List String}
    {mode : Sync.Mode} :
    ∀ (dirs : List LprojDir) (m : Module) (acc : List (String × Sync.LangEntry))
      (sy : List String) (langs : List (String × Sync.LangEntry))
      (sy' : List String) (m' : Module) (d : LprojDir),
      Sync.syncLoop ps pk mode dirs m acc sy = (.ok (langs, sy'), m') →
      d ∈ dirs → ¬ d.lang = "en" →
      (dirs.map (fun x => x.lang)).Nodup →
      pyGet? acc d.lang = none →
      (d.strings_file = none →
        pyGet? langs d.lang = some (.missingFile pk.length)) ∧
      (∀ fd txt, d.strings_file = some fd → Sync.read_text fd = .ok txt →
        pyGet? langs d.lang = some (Sync.statsEntry ps pk txt)) := by
  intro dirs
  induction dirs with
  | nil =>
    intro m acc sy langs sy' m' d h hd
    exact absurd hd (by simp)
  | cons d0 rest ih =>
    intro m acc sy langs sy' m' d h hd hden hnd hacc
    have hnd' : (rest.map (fun x => x.lang)).Nodup := (List.nodup_cons.mp hnd).2
    have hd0notin : d0.lang ∉ rest.map (fun x => x.lang) := (List.nodup_cons.mp hnd).1
    rcases List.mem_cons.mp hd with hdd | hdrest
    · -- the directory at the head is the one we are tracking
      subst hdd
      rw [syncLoop_cons] at h
      rw [if_neg hden] at h
      have hrest : ∀ d' ∈ rest, ¬ d'.lang = d.lang := by
        intro d' hd' hcon
        exact hd0notin (hcon ▸ List.mem_map_of_mem (fun x => x.lang) hd')
      cases hfile : d.strings_file with
      | none =>
        rw [hfile] at h
        refine ⟨fun _ => ?_, fun fd txt hfd _ => ?_⟩
        · exact syncLoop_preserve rest m _ sy langs sy' m' d.lang _ h
            (pyGet?_insert_self acc d.lang _) hrest
        · exact absurd hfd (by simp)
      | some fd =>
        rw [hfile] at h
        dsimp only at h
        refine ⟨fun hnone => ?_, fun fd' txt' hfd' hread' => ?_⟩
        · exact absurd hnone (by simp)
        · injection hfd' with hfd2
          subst hfd2
          cases hread : Sync.read_text fd with
          | error e =>
            rw [hread] at h
            dsimp only at h
            exact absurd h (by simp)
          | ok txt =>
            have htxt : txt' = txt := by
              rw [hread] at hread'
              injection hread' with hh
              exact hh.symm
            subst htxt
            rw [hread] at h
            dsimp only at h
            split at h
            · exact syncLoop_preserve rest _ _ _ langs sy' m' d.lang _ h
                (pyGet?_insert_self acc d.lang _) hrest
            · exact syncLoop_preserve rest m _ sy langs sy' m' d.lang _ h
                (pyGet?_insert_self acc d.lang _) hrest
    · -- the directory is further down the list
      have hlangne : ¬ d0.lang = d.lang := by
        intro hcon
        exact hd0notin (hcon ▸ List.mem_map_of_mem (fun x => x.lang) hdrest)
      rw [syncLoop_cons] at h
      split at h
      · exact ih m acc sy langs sy' m' d h hdrest hden hnd' hacc
      · split at h
        · exact ih m _ sy langs sy' m' d h hdrest hden hnd'
            (by rw [pyGet?_insert_ne _ d0.lang d.lang _ (fun hh => hlangne hh.symm)]; exact hacc)
        · split at h
          · exact absurd h (by simp)
          · split at h
            · exact ih _ _ _ langs sy' m' d h hdrest hden hnd'
                (by rw [pyGet?_insert_ne _ d0.lang d.lang _ (fun hh => hlangne hh.symm)]; exact hacc)
            · exact ih m _ sy langs sy' m' d h hdrest hden hnd'
                (by rw [pyGet?_insert_ne _ d0.lang d.lang _ (fun hh => hlangne hh.symm)]; exact hacc)

/-- Unpacking a successful `sync_module` run into its pieces. -/
theorem sync_module_report_inv {m : Module} {mode : Sync.Mode}
    {r : Sync.SyncReport} {m' : Module}
    (h : Sync.sync_module m mode = (.ok (.report r), m')) :
    ∃ dEn fd txt sy,
      m.lprojDirs.find? (fun d => d.lang == "en") = some dEn ∧
      dEn.strings_file = some fd ∧ Sync.read_text fd = .ok txt ∧
      Sync.syncLoop (Sync.parseContent txt).1 (pyKeys (Sync.parseContent txt).1)
          mode (Sync.sortedDirs m.lprojDirs) m [] [] =
        (.ok (r.languages, sy), m') ∧
      r.module = m.name ∧ r.primary_language = "en" ∧
      r.total_keys = (pyKeys (Sync.parseContent txt).1).length ∧
      r.synced_files = (if mode = Sync.Mode.sync then some sy else none) := by
  unfold Sync.sync_module at h
  split at h
  · simp at h
  · split at h
    · simp at h
    · split at h
      · simp at h
      next dEn hfind =>
        split at h
        · simp at h
        next fd hfd =>
          split at h
          · simp at h
          next txt hread =>
            split at h
            next hmode =>
              dsimp only at h
              split at h
              · simp at h
              next langs synced m2 hloop =>
                simp only [Prod.mk.injEq, Except.ok.injEq,
                  Sync.SyncOutcome.report.injEq] at h
                obtain ⟨hr, hm⟩ := h
                rw [hm] at hloop
                refine ⟨dEn, fd, txt, synced, hfind, hfd, hread, ?_, ?_, ?_, ?_, ?_⟩
                · rw [← hr]
                  exact hloop
                · rw [← hr]
                · rw [← hr]
                · rw [← hr]
                · rw [← hr]
                  simp [hmode]
            next hmode =>
              dsimp only at h
              split at h
              · simp at h
              next langs synced m2 hloop =>
                simp only [Prod.mk.injEq, Except.ok.injEq,
                  Sync.SyncOutcome.report.injEq] at h
                obtain ⟨hr, hm⟩ := h
                rw [hm] at hloop
                refine ⟨dEn, fd, txt, synced, hfind, hfd, hread, ?_, ?_, ?_, ?_, ?_⟩
                · rw [← hr]
                  exact hloop
                · rw [← hr]
                · rw [← hr]
                · rw [← hr]
                · rw [← hr]
                  simp [hmode]

/-! ## Accessors used to state the claims -/

/-- The completion field of a statistics entry. -/
def entryCompletion? : Sync.LangEntry → Option Nat
  | .missingFile _ => none
  | .stats _ _ _ _ _ c => some c

/-- The per-language entry of a `sync_module` run's report. -/
def syncLangEntry? (m : Module) (mode : Sync.Mode) (L : String) :
    Option Sync.LangEntry :=
  match (Sync.sync_module m mode).1 with
  | .ok (.report r) => pyGet? r.languages L
  | _ => none

/-- Keys of a dict built by folding `pyInsert` are distinct. -/
theorem pyKeys_foldl_nodup (pairs : List (String × String))
    (d : List (String × String)) (h : (pyKeys d).Nodup) :
    (pyKeys (pairs.foldl (fun acc kv => pyInsert acc kv.1 kv.2) d)).Nodup := by
  induction pairs generalizing d with
  | nil => exact h
  | cons kv rest ih =>
    rw [List.foldl_cons]
    exact ih _ (pyKeys_insert_nodup _ h)

theorem parseContent_keys_nodup (c : List Char) :
    (pyKeys (Sync.parseContent c).1).Nodup := by
  rw [sync_parseContent_eq]
  exact pyKeys_foldl_nodup _ [] (by simp [pyKeys])

/-- Counting a set intersection by filtering: if the keys of `b` all lie
in `a` and both lists are duplicate-free, filtering `a` by membership in
`b` finds exactly `b.length` elements. -/
theorem filter_mem_length {α : Type} [DecidableEq α] :
    ∀ (a b : List α), a.Nodup → b.Nodup → (∀ x ∈ b, x ∈ a) →
      (a.filter (fun x => decide (x ∈ b))).length = b.length
  | [], b, _, _, hsub => by
    have : b = [] := List.eq_nil_iff_forall_not_mem.mpr
      (fun x hx => by simpa using hsub x hx)
    rw [this]
    rfl
  | x :: a', b, ha, hb, hsub => by
    have hxa : x ∉ a' := (List.nodup_cons.mp ha).1
    have ha' : a'.Nodup := (List.nodup_cons.mp ha).2
    by_cases hx : x ∈ b
    · rw [List.filter_cons, if_pos (by simpa using hx)]
      have hb' : (b.erase x).Nodup := hb.erase x
      have hsub' : ∀ y ∈ b.erase x, y ∈ a' := by
        intro y hy
        have hyx : y ≠ x ∧ y ∈ b := (hb.mem_erase_iff).mp hy
        rcases List.mem_cons.mp (hsub y hyx.2) with h1 | h1
        · exact absurd h1 hyx.1
        · exact h1
      have hcongr : a'.filter (fun y => decide (y ∈ b)) =
          a'.filter (fun y => decide (y ∈ b.erase x)) := by
        apply List.filter_congr
        intro y hy
        have hyx : ¬ y = x := fun hh => hxa (hh ▸ hy)
        simp only [decide_eq_decide]
        rw [hb.mem_erase_iff]
        constructor
        · intro h1; exact ⟨hyx, h1⟩
        · intro h1; exact h1.2
      have hlen := filter_mem_length a' (b.erase x) ha' hb' hsub'
      rw [hcongr]
      simp only [List.length_cons]
      rw [hlen, List.length_erase_of_mem hx]
      have : 1 ≤ b.length := List.length_pos.mpr (List.ne_nil_of_mem hx)
      omega
    · rw [List.filter_cons, if_neg (by simpa using hx)]
      refine filter_mem_length a' b ha' hb ?_
      intro y hy
      rcases List.mem_cons.mp (hsub y hy) with h1 | h1
      · exact absurd (h1 ▸ hy) hx
      · exact h1

/-! ## Claim C2 -/

/-- The directories sorted by `sorted(lproj_dirs)` are a permutation of
the originals, so membership and language distinctness carry over. -/
theorem sortedDirs_perm (dirs : List LprojDir) :
    List.Perm (Sync.sortedDirs dirs) dirs :=
  List.perm_insertionSort _ dirs

theorem containsKey_eq_decide_mem {α : Type} (d : List (String × α))
    (k : String) : containsKey d k = decide (k ∈ pyKeys d) := by
  by_cases h : k ∈ pyKeys d
  · rw [decide_eq_true h]
    exact containsKey_iff_mem_pyKeys.mpr h
  · rw [decide_eq_false h]
    cases hc : containsKey d k
    · rfl
    · exact absurd (containsKey_iff_mem_pyKeys.mp hc) h

def moduleC2 : Module :=
  ⟨"Demo", true,
   [⟨"en", some (.utf8 ("\"a\" = \"A\";\n\"b\" = \"B\";".data))⟩,
    ⟨"fr", some (.utf8 ("\"a\" = \"X\";\n\"c\" = \"Y\";".data))⟩]⟩

/-- C2: the claim as stated is false.  The script computes the
completion from the size of the target's whole key set, not of its
intersection with the primary key set: for primary keys {a,b} and
target keys {a,c} the intersection has 1 of 2 primary keys (the
claimed formula gives 50.0%), but the report says 100.0%. -/
theorem C2_counterexample :
    syncLangEntry? moduleC2 Sync.Mode.report "fr" =
      some (.stats "incomplete" 2 1 1 ["b"] 1000) ∧
    ((pyKeys (Sync.parseContent ("\"a\" = \"A\";\n\"b\" = \"B\";".data)).1).filter
        (fun k => containsKey
          (Sync.parseContent ("\"a\" = \"X\";\n\"c\" = \"Y\";".data)).1 k)).length = 1 ∧
    (pyKeys (Sync.parseContent ("\"a\" = \"A\";\n\"b\" = \"B\";".data)).1).length = 2 ∧
    (1000 : Nat) ≠ 1000 * 1 / 2 := by
  refine ⟨?_, ?_, ?_, ?_⟩ <;> decide

/-- C2 (amended): on a successful run, each non-primary language with an
existing, readable file gets the statistics entry for its text; its
completion is the tenths-rounding of 100 × |that language's whole key
set| / |primary keys| (100 when the primary table is empty), which
agrees with the claimed intersection formula exactly when the
language's keys are a subset of the primary keys. -/
theorem C2_completion (m : Module) (mode : Sync.Mode) (r : Sync.SyncReport)
    (m' : Module) (dEn : LprojDir) (fdEn : FileData) (enTxt : List Char)
    (d : LprojDir) (fd : FileData) (txt : List Char)
    (hrun : Sync.sync_module m mode = (.ok (.report r), m'))
    (hfind : m.lprojDirs.find? (fun x => x.lang == "en") = some dEn)
    (hfdEn : dEn.strings_file = some fdEn)
    (hreadEn : Sync.read_text fdEn = .ok enTxt)
    (hd : d ∈ m.lprojDirs) (hden : ¬ d.lang = "en")
    (hnd : (m.lprojDirs.map (fun x => x.lang)).Nodup)
    (hfd : d.strings_file = some fd) (hread : Sync.read_text fd = .ok txt) :
    pyGet? r.languages d.lang =
      some (Sync.statsEntry (Sync.parseContent enTxt).1
        (pyKeys (Sync.parseContent enTxt).1) txt) ∧
    entryCompletion? (Sync.statsEntry (Sync.parseContent enTxt).1
        (pyKeys (Sync.parseContent enTxt).1) txt) =
      some (if (pyKeys (Sync.parseContent enTxt).1).isEmpty then 1000
        else Sync.roundTenthsHalfEven (pyKeys (Sync.parseContent txt).1).length
          (pyKeys (Sync.parseContent enTxt).1).length) ∧
    ((∀ k ∈ pyKeys (Sync.parseContent txt).1,
        k ∈ pyKeys (Sync.parseContent enTxt).1) →
      entryCompletion? (Sync.statsEntry (Sync.parseContent enTxt).1
          (pyKeys (Sync.parseContent enTxt).1) txt) =
        some (if (pyKeys (Sync.parseContent enTxt).1).isEmpty then 1000
          else Sync.roundTenthsHalfEven
            ((pyKeys (Sync.parseContent enTxt).1).filter
              (fun k => containsKey (Sync.parseContent txt).1 k)).length
            (pyKeys (Sync.parseContent enTxt).1).length)) := by
  obtain ⟨dEn', fd', txt', sy, hfind', hfd', hread', hloop, -, -, -, -⟩ :=
    sync_module_report_inv hrun
  rw [hfind] at hfind'
  injection hfind' with hdEn
  subst hdEn
  rw [hfdEn] at hfd'
  injection hfd' with hfdeq
  subst hfdeq
  rw [hreadEn] at hread'
  injection hread' with htxteq
  subst htxteq
  have hdmem : d ∈ Sync.sortedDirs m.lprojDirs :=
    ((sortedDirs_perm m.lprojDirs).mem_iff).mpr hd
  have hndS : ((Sync.sortedDirs m.lprojDirs).map (fun x => x.lang)).Nodup :=
    (((sortedDirs_perm m.lprojDirs).map (fun x => x.lang)).nodup_iff).mpr hnd
  have hget := (syncLoop_lookup (Sync.sortedDirs m.lprojDirs) m [] []
    r.languages sy m' d hloop hdmem hden hndS rfl).2 fd txt hfd hread
  refine ⟨hget, rfl, ?_⟩
  intro hsub
  have hcongr : (pyKeys (Sync.parseContent enTxt).1).filter
      (fun k => containsKey (Sync.parseContent txt).1 k) =
    (pyKeys (Sync.parseContent enTxt).1).filter
      (fun k => decide (k ∈ pyKeys (Sync.parseContent txt).1)) := by
    apply List.filter_congr
    intro k _
    exact containsKey_eq_decide_mem _ k
  have hlen : ((pyKeys (Sync.parseContent enTxt).1).filter
      (fun k => decide (k ∈ pyKeys (Sync.parseContent txt).1))).length =
    (pyKeys (Sync.parseContent txt).1).length :=
    filter_mem_length _ _ (parseContent_keys_nodup enTxt)
      (parseContent_keys_nodup txt) hsub
  rw [hcongr, hlen]
  rfl

def enTxtC2w : List Char := ("\"a\" = \"Hello\";\n\"b\" = \"Bye %@\";").data

def frTxtC2w : List Char := ("\"a\" = \"Bonjour\";").data

def dEnC2w : LprojDir := ⟨"en", some (.utf8 enTxtC2w)⟩

def dFrC2w : LprojDir := ⟨"fr", some (.utf8 frTxtC2w)⟩

def moduleC2w : Module := ⟨"Demo", true, [dEnC2w, dFrC2w]⟩

def rC2w : Sync.SyncReport :=
  ⟨"Demo", "en", 2,
   [("fr", Sync.LangEntry.stats "incomplete" 1 1 0 ["b"] 500)], none⟩

/-- Witness for the amended C2 at the spec's own scenario: primary
`{a, b}`, target `{a}`, reported completion 50.0%. -/
theorem C2_completion_witness :
    pyGet? rC2w.languages dFrC2w.lang =
      some (Sync.statsEntry (Sync.parseContent enTxtC2w).1
        (pyKeys (Sync.parseContent enTxtC2w).1) frTxtC2w) ∧
    entryCompletion? (Sync.statsEntry (Sync.parseContent enTxtC2w).1
        (pyKeys (Sync.parseContent enTxtC2w).1) frTxtC2w) =
      some (if (pyKeys (Sync.parseContent enTxtC2w).1).isEmpty then 1000
        else Sync.roundTenthsHalfEven (pyKeys (Sync.parseContent frTxtC2w).1).length
          (pyKeys (Sync.parseContent enTxtC2w).1).length) ∧
    ((∀ k ∈ pyKeys (Sync.parseContent frTxtC2w).1,
        k ∈ pyKeys (Sync.parseContent enTxtC2w).1) →
      entryCompletion? (Sync.statsEntry (Sync.parseContent enTxtC2w).1
          (pyKeys (Sync.parseContent enTxtC2w).1) frTxtC2w) =
        some (if (pyKeys (Sync.parseContent enTxtC2w).1).isEmpty then 1000
          else Sync.roundTenthsHalfEven
            ((pyKeys (Sync.parseContent enTxtC2w).1).filter
              (fun k => containsKey (Sync.parseContent frTxtC2w).1 k)).length
            (pyKeys (Sync.parseContent enTxtC2w).1).length)) :=
  C2_completion moduleC2w Sync.Mode.report rC2w moduleC2w dEnC2w
    (.utf8 enTxtC2w) enTxtC2w dFrC2w (.utf8 frTxtC2w) frTxtC2w
    rfl (by decide) (by decide) rfl (by decide)
    (by decide) (by decide) (by decide) rfl

/-! ## The validator's module-level state, named for the claims -/

/-- The `all_strings` dict built by `validate_module`: one entry per
`.lproj` directory that has a `Localizable.strings` file. -/
def allStringsOf (m : Module) : List (String × List (String × String)) :=
  (m.lprojDirs.filterMap (fun d =>
    d.strings_file.map (fun fd => (d.lang, Validate.parse_strings_file fd)))).foldl
    (fun acc p => pyInsert acc p.1 p.2.1) []

/-- The `parse_errors` dict built by `validate_module`. -/
def parseErrorsOf (m : Module) : List (String × List String) :=
  (m.lprojDirs.filterMap (fun d =>
    d.strings_file.map (fun fd => (d.lang, Validate.parse_strings_file fd)))).foldl
    (fun acc p => if p.2.2.isEmpty then acc else pyInsert acc p.1 p.2.2) []

/-- The primary language `validate_module` settles on: `en` when
present, otherwise the first parsed language. -/
def vPrimaryOf (m : Module) : String :=
  if containsKey (allStringsOf m) "en" then "en"
  else (((allStringsOf m).head?.map Prod.fst).getD "")

def vPrimary? : Validate.VOutcome → Option String
  | .error _ => none
  | .report s _ => some s.primary_language

def vIsError : Validate.VOutcome → Bool
  | .error _ => true
  | .report _ _ => false

/-- A fold whose step keeps the `parse_errors` field keeps it overall. -/
theorem foldl_parse_errors {β : Type}
    (step : Validate.VIssues → β → Validate.VIssues)
    (hstep : ∀ acc x, (step acc x).parse_errors = acc.parse_errors) :
    ∀ (l : List β) (init : Validate.VIssues),
      (l.foldl step init).parse_errors = init.parse_errors
  | [], _ => rfl
  | x :: rest, init => by
    rw [List.foldl_cons, foldl_parse_errors step hstep rest, hstep]

/-- Unpacking `validate_module`'s report outcome. -/
theorem validate_report_inv {m : Module} {s : Validate.VSummary}
    {i : Validate.VIssues} (h : Validate.validate_module m = .report s i) :
    s.module = m.name ∧ s.languages = pyKeys (allStringsOf m) ∧
    s.primary_language = vPrimaryOf m ∧ i.parse_errors = parseErrorsOf m ∧
    allStringsOf m ≠ [] := by
  unfold Validate.validate_module at h
  split at h
  · exact absurd h (by simp)
  · split at h
    · exact absurd h (by simp)
    · dsimp only at h
      split at h
      · exact absurd h (by simp)
      next first rest heq =>
        simp only [Validate.VOutcome.report.injEq] at h
        obtain ⟨hs, hi⟩ := h
        refine ⟨?_, ?_, ?_, ?_, ?_⟩
        · rw [← hs]
        · rw [← hs]
          rfl
        · rw [← hs]
          show (if containsKey (allStringsOf m) "en" = true then "en" else first.1)
            = vPrimaryOf m
          unfold vPrimaryOf
          by_cases hc : containsKey (allStringsOf m) "en" = true
          · rw [if_pos hc, if_pos hc]
          · rw [if_neg hc, if_neg hc]
            rw [show allStringsOf m = first :: rest from heq]
            rfl
        · rw [← hi]
          refine Eq.trans (foldl_parse_errors _ ?_ _ _) rfl
          intro acc x
          by_cases hx : x.1 = (if containsKey
              (List.foldl (fun acc p => pyInsert acc p.1 p.2.1) []
                (List.filterMap (fun d =>
                  Option.map (fun fd => (d.lang, Validate.parse_strings_file fd))
                    d.strings_file) m.lprojDirs)) "en" = true
            then "en" else first.1)
          · rw [if_pos hx]
          · rw [if_neg hx]
        · rw [show allStringsOf m = first :: rest from heq]
          simp

/-- Every mode of `validate_module` that does not report produced one of
its three fixed error dicts. -/
theorem validate_report_total {m : Module}
    (hres : m.hasResources = true) (hne : m.lprojDirs.isEmpty = false)
    (hall : allStringsOf m ≠ []) :
    vIsError (Validate.validate_module m) = false := by
  unfold Validate.validate_module
  rw [hres]
  simp only [Bool.not_true, Bool.false_eq_true, if_false]
  rw [hne]
  simp only [Bool.false_eq_true, if_false]
  split
  next heq => exact absurd heq hall
  · rfl

/-- Membership in the keys of an insertion fold. -/
theorem mem_pyKeys_insert {α : Type} {m : List (String × α)} {k k' : String}
    {v : α} : k' ∈ pyKeys (pyInsert m k v) ↔ k' ∈ pyKeys m ∨ k' = k := by
  by_cases hc : containsKey m k = true
  · rw [pyKeys_insert_of_contains v hc]
    constructor
    · exact Or.inl
    · intro h
      rcases h with h | h
      · exact h
      · exact h ▸ containsKey_iff_mem_pyKeys.mp hc
  · rw [pyKeys_insert_of_not_contains v (by simpa using hc)]
    simp

theorem mem_pyKeys_foldl {α : Type} {β : Type} (f : β → String) (g : β → α) :
    ∀ (pairs : List β) (d : List (String × α)) (k : String),
      k ∈ pyKeys (pairs.foldl (fun acc p => pyInsert acc (f p) (g p)) d) ↔
        k ∈ pyKeys d ∨ k ∈ pairs.map f
  | [], d, k => by simp
  | p :: rest, d, k => by
    rw [List.foldl_cons, mem_pyKeys_foldl f g rest, mem_pyKeys_insert]
    simp only [List.map_cons, List.mem_cons]
    constructor
    · intro h
      rcases h with (h | h) | h
      · exact Or.inl h
      · exact Or.inr (Or.inl h)
      · exact Or.inr (Or.inr h)
    · intro h
      rcases h with h | h | h
      · exact Or.inl (Or.inl h)
      · exact Or.inl (Or.inr h)
      · exact Or.inr h

/-- The languages of `all_strings` are exactly the languages of the
directories that have a strings file. -/
theorem mem_allStringsOf {m : Module} {k : String} :
    k ∈ pyKeys (allStringsOf m) ↔
      ∃ d ∈ m.lprojDirs, d.lang = k ∧ ¬ d.strings_file = none := by
  unfold allStringsOf
  have hfold := mem_pyKeys_foldl (α := List (String × String))
    (fun (p : String × (List (String × String) × List String)) => p.1)
    (fun p => p.2.1)
    (m.lprojDirs.filterMap (fun d =>
      d.strings_file.map (fun fd => (d.lang, Validate.parse_strings_file fd))))
    [] k
  rw [show (fun (acc : List (String × List (String × String)))
      (p : String × (List (String × String) × List String)) =>
        pyInsert acc p.1 p.2.1) =
      (fun acc p => pyInsert acc
        ((fun (p : String × (List (String × String) × List String)) => p.1) p)
        ((fun (p : String × (List (String × String) × List String)) => p.2.1) p))
    from rfl]
  rw [hfold]
  simp only [pyKeys, List.map_nil, List.not_mem_nil, false_or, List.mem_map,
    List.mem_filterMap, Option.map_eq_some']
  constructor
  · intro h
    obtain ⟨p, ⟨d, hd, fd, hfd, hp⟩, hk⟩ := h
    refine ⟨d, hd, ?_, ?_⟩
    · rw [← hk, ← hp]
    · rw [hfd]
      simp
  · intro h
    obtain ⟨d, hd, hk, hfd⟩ := h
    cases hf : d.strings_file with
    | none => exact absurd hf hfd
    | some fd =>
      exact ⟨(d.lang, Validate.parse_strings_file fd), ⟨d, hd, fd, hf, rfl⟩, hk⟩

/-! ## Claim C3 -/

def moduleC3 : Module :=
  ⟨"Demo", true, [⟨"fr", some (.utf8 ("\"a\" = \"X\";".data))⟩]⟩

/-- C3: the claim as stated is false.  On a module whose only language
is `fr` (no `en` anywhere), the validator does not fail: it silently
substitutes `fr` as the reference language and produces a report. -/
theorem C3_counterexample :
    vPrimary? (Validate.validate_module moduleC3) = some "fr" ∧
    vIsError (Validate.validate_module moduleC3) = false := by
  refine ⟨?_, ?_⟩ <;> decide

/-- C3 (amended): only the syncer treats a missing primary table as a
hard precondition failure — a fixed error dict, with the module left
untouched, both when no `en.lproj` exists and when `en.lproj` has no
strings file.  The validator instead falls back: when `en` is not among
the parsed languages it substitutes the first parsed language as the
reference and still produces a report. -/
theorem C3_missing_primary (m : Module) (mode : Sync.Mode)
    (hres : m.hasResources = true) (hne : m.lprojDirs.isEmpty = false) :
    (m.lprojDirs.find? (fun d => d.lang == "en") = none →
      Sync.sync_module m mode =
        (.ok (.errorDict "English (en.lproj) not found"), m)) ∧
    (∀ dEn, m.lprojDirs.find? (fun d => d.lang == "en") = some dEn →
      dEn.strings_file = none →
      Sync.sync_module m mode =
        (.ok (.errorDict "English Localizable.strings not found"), m)) ∧
    (¬ containsKey (allStringsOf m) "en" = true → allStringsOf m ≠ [] →
      vPrimary? (Validate.validate_module m) =
        some (((allStringsOf m).head?.map Prod.fst).getD "") ∧
      vIsError (Validate.validate_module m) = false) := by
  refine ⟨?_, ?_, ?_⟩
  · intro hfind
    unfold Sync.sync_module
    rw [hres]
    simp only [Bool.not_true, Bool.false_eq_true, if_false]
    rw [hne]
    simp only [Bool.false_eq_true, if_false]
    rw [hfind]
  · intro dEn hfind hfile
    unfold Sync.sync_module
    rw [hres]
    simp only [Bool.not_true, Bool.false_eq_true, if_false]
    rw [hne]
    simp only [Bool.false_eq_true, if_false]
    rw [hfind]
    dsimp only
    rw [hfile]
  · intro hen hall
    have htot := validate_report_total hres hne hall
    cases hv : Validate.validate_module m with
    | error msg =>
      rw [hv] at htot
      exact absurd htot (by simp [vIsError])
    | report s i =>
      obtain ⟨-, -, hprim, -, -⟩ := validate_report_inv hv
      refine ⟨?_, rfl⟩
      show some s.primary_language = _
      rw [hprim]
      unfold vPrimaryOf
      rw [if_neg hen]

/-- Witness for the amended C3 on the one-language module. -/
theorem C3_missing_primary_witness :
    (moduleC3.lprojDirs.find? (fun d => d.lang == "en") = none →
      Sync.sync_module moduleC3 Sync.Mode.report =
        (.ok (.errorDict "English (en.lproj) not found"), moduleC3)) ∧
    (∀ dEn, moduleC3.lprojDirs.find? (fun d => d.lang == "en") = some dEn →
      dEn.strings_file = none →
      Sync.sync_module moduleC3 Sync.Mode.report =
        (.ok (.errorDict "English Localizable.strings not found"), moduleC3)) ∧
    (¬ containsKey (allStringsOf moduleC3) "en" = true →
      allStringsOf moduleC3 ≠ [] →
      vPrimary? (Validate.validate_module moduleC3) =
        some (((allStringsOf moduleC3).head?.map Prod.fst).getD "") ∧
      vIsError (Validate.validate_module moduleC3) = false) :=
  C3_missing_primary moduleC3 Sync.Mode.report (by decide) (by decide)

/-! ## Claim C6 -/

def vLanguages? : Validate.VOutcome → Option (List String)
  | .error _ => none
  | .report s _ => some s.languages

def moduleC6 : Module :=
  ⟨"Demo", true,
   [⟨"en", some (.utf8 ("\"a\" = \"A\";".data))⟩, ⟨"fr", none⟩]⟩

/-- C6: the claim as stated is false for the validator.  On a module
with `en` (one key) and an `fr.lproj` directory that has no strings
file, the validator's report lists only `en`: `fr` is silently omitted,
with no degenerate per-language result. -/
theorem C6_counterexample :
    (∃ d ∈ moduleC6.lprojDirs, d.lang = "fr") ∧
    vLanguages? (Validate.validate_module moduleC6) = some ["en"] ∧
    ("fr" : String) ∉ ["en"] := by
  refine ⟨⟨⟨"fr", none⟩, by decide, rfl⟩, ?_, by decide⟩
  decide

/-- C6 (amended): the syncer reports a discovered non-primary language
directory without a strings file as the degenerate `missingFile` entry
carrying the full primary key count; the validator instead omits that
language from its report entirely. -/
theorem C6_missing_file (m : Module) (mode : Sync.Mode) (r : Sync.SyncReport)
    (m' : Module) (dEn : LprojDir) (fdEn : FileData) (enTxt : List Char)
    (d : LprojDir)
    (hrun : Sync.sync_module m mode = (.ok (.report r), m'))
    (hfind : m.lprojDirs.find? (fun x => x.lang == "en") = some dEn)
    (hfdEn : dEn.strings_file = some fdEn)
    (hreadEn : Sync.read_text fdEn = .ok enTxt)
    (hd : d ∈ m.lprojDirs) (hden : ¬ d.lang = "en")
    (hnd : (m.lprojDirs.map (fun x => x.lang)).Nodup)
    (hfd : d.strings_file = none) :
    pyGet? r.languages d.lang =
      some (Sync.LangEntry.missingFile
        (pyKeys (Sync.parseContent enTxt).1).length) ∧
    (∀ s i, Validate.validate_module m = .report s i →
      d.lang ∉ s.languages) := by
  obtain ⟨dEn', fd', txt', sy, hfind', hfd', hread', hloop, -, -, -, -⟩ :=
    sync_module_report_inv hrun
  rw [hfind] at hfind'
  injection hfind' with hdEn
  subst hdEn
  rw [hfdEn] at hfd'
  injection hfd' with hfdeq
  subst hfdeq
  rw [hreadEn] at hread'
  injection hread' with htxteq
  subst htxteq
  have hdmem : d ∈ Sync.sortedDirs m.lprojDirs :=
    ((sortedDirs_perm m.lprojDirs).mem_iff).mpr hd
  have hndS : ((Sync.sortedDirs m.lprojDirs).map (fun x => x.lang)).Nodup :=
    (((sortedDirs_perm m.lprojDirs).map (fun x => x.lang)).nodup_iff).mpr hnd
  refine ⟨(syncLoop_lookup (Sync.sortedDirs m.lprojDirs) m [] []
    r.languages sy m' d hloop hdmem hden hndS rfl).1 hfd, ?_⟩
  intro s i hv hmem
  obtain ⟨-, hlangs, -, -, -⟩ := validate_report_inv hv
  rw [hlangs] at hmem
  obtain ⟨d', hd'mem, hlang, hfile⟩ := mem_allStringsOf.mp hmem
  have : d' = d :=
    List.inj_on_of_nodup_map hnd hd'mem hd hlang
  rw [this] at hfile
  exact hfile hfd

def enTxtC6w : List Char := ("\"a\" = \"A\";\n\"b\" = \"B\";").data

def dEnC6w : LprojDir := ⟨"en", some (.utf8 enTxtC6w)⟩

def dFrC6w : LprojDir := ⟨"fr", none⟩

def moduleC6w : Module := ⟨"Demo", true, [dEnC6w, dFrC6w]⟩

def rC6w : Sync.SyncReport :=
  ⟨"Demo", "en", 2, [("fr", Sync.LangEntry.missingFile 2)], none⟩

/-- Witness for the amended C6: the spec's own scenario, a target
directory with no string-table file. -/
theorem C6_missing_file_witness :
    pyGet? rC6w.languages dFrC6w.lang =
      some (Sync.LangEntry.missingFile
        (pyKeys (Sync.parseContent enTxtC6w).1).length) ∧
    (∀ s i, Validate.validate_module moduleC6w = .report s i →
      dFrC6w.lang ∉ s.languages) :=
  C6_missing_file moduleC6w Sync.Mode.report rC6w moduleC6w dEnC6w
    (.utf8 enTxtC6w) enTxtC6w dFrC6w
    rfl (by decide) (by decide) rfl (by decide) (by decide) (by decide) rfl

/-! ## Claim C5 -/

/-- An undecodable file of any non-primary directory makes the sync
loop raise (the second `read_text` is not guarded by any `except`). -/
theorem syncLoop_error_of_undecodable {ps : List (String × String)}
    {pk : List String} {mode : Sync.Mode} :
    ∀ (dirs : List LprojDir) (m : Module)
      (acc : List (String × Sync.LangEntry)) (sy : List String)
      (d : LprojDir), d ∈ dirs → ¬ d.lang = "en" →
      d.strings_file = some FileData.undecodable →
      ∃ m2, Sync.syncLoop ps pk mode dirs m acc sy = (Except.error (), m2)
  | [], _, _, _, d => by
    intro hd
    exact absurd hd (by simp)
  | d0 :: rest, m, acc, sy, d => by
    intro hd hden hund
    rw [syncLoop_cons]
    rcases List.mem_cons.mp hd with hdd | hdrest
    · subst hdd
      rw [if_neg hden, hund]
      exact ⟨m, rfl⟩
    · by_cases h0 : d0.lang = "en"
      · rw [if_pos h0]
        exact syncLoop_error_of_undecodable rest m acc sy d hdrest hden hund
      · rw [if_neg h0]
        cases hf : d0.strings_file with
        | none =>
          exact syncLoop_error_of_undecodable rest m _ sy d hdrest hden hund
        | some fd =>
          dsimp only
          cases hr : Sync.read_text fd with
          | error e => exact ⟨m, rfl⟩
          | ok txt =>
            dsimp only
            split
            · exact syncLoop_error_of_undecodable rest _ _ _ d hdrest hden hund
            · exact syncLoop_error_of_undecodable rest m _ sy d hdrest hden hund

/-- A fold of conditional insertions keeps an established binding whose
key is only ever re-bound to the same value. -/
theorem condInsert_get_keep {β γ : Type} (f : β → String) (g : β → γ)
    (q : β → Bool) :
    ∀ (pairs : List β) (d : List (String × γ)) (k : String) (v : γ),
      pyGet? d k = some v → (∀ z ∈ pairs, f z = k → g z = v) →
      pyGet? (pairs.foldl
        (fun acc a => if q a then acc else pyInsert acc (f a) (g a)) d) k = some v
  | [], d, k, v => fun h _ => h
  | z :: rest, d, k, v => by
    intro hd hval
    rw [List.foldl_cons]
    have hrest : ∀ z' ∈ rest, f z' = k → g z' = v :=
      fun z' hz' => hval z' (by simp [hz'])
    by_cases hq : q z = true
    · rw [if_pos hq]
      exact condInsert_get_keep f g q rest d k v hd hrest
    · rw [if_neg hq]
      by_cases hk : f z = k
      · refine condInsert_get_keep f g q rest _ k v ?_ hrest
        rw [hk, hval z (by simp) hk]
        exact pyGet?_insert_self d k v
      · refine condInsert_get_keep f g q rest _ k v ?_ hrest
        rw [pyGet?_insert_ne d (f z) k (g z) (fun hh => hk hh.symm)]
        exact hd

/-- The binding a fold of conditional insertions produces for a key
whose every occurrence carries the same value. -/
theorem condInsert_get {β γ : Type} (f : β → String) (g : β → γ)
    (q : β → Bool) :
    ∀ (pairs : List β) (d : List (String × γ)) (x : β),
      x ∈ pairs → q x = false → (∀ z ∈ pairs, f z = f x → g z = g x) →
      pyGet? (pairs.foldl
        (fun acc a => if q a then acc else pyInsert acc (f a) (g a)) d) (f x)
        = some (g x)
  | [], d, x => by
    intro hx
    exact absurd hx (by simp)
  | y :: rest, d, x => by
    intro hx hq hval
    rw [List.foldl_cons]
    have hrest : ∀ z ∈ rest, f z = f x → g z = g x :=
      fun z hz => hval z (by simp [hz])
    rcases List.mem_cons.mp hx with hxy | hxr
    · subst hxy
      rw [hq]
      simp only [Bool.false_eq_true, if_false]
      exact condInsert_get_keep f g q rest _ (f x) (g x)
        (pyGet?_insert_self d (f x) (g x)) hrest
    · exact condInsert_get f g q rest _ x hxr hq hrest

/-- A `filterMap` that keeps an element's image only when an option is
populated yields a sublist of the plain `map`. -/
theorem filterMap_const_sublist {α β γ : Type} (o : α → Option γ) (g : α → β) :
    ∀ l : List α,
      (l.filterMap (fun a => (o a).map (fun _ => g a))).Sublist (l.map g)
  | [] => List.Sublist.refl _
  | a :: rest => by
    rw [List.map_cons]
    cases ho : o a with
    | none =>
      simp only [List.filterMap_cons, ho, Option.map_none']
      exact (filterMap_const_sublist o g rest).cons _
    | some c =>
      simp only [List.filterMap_cons, ho, Option.map_some']
      exact (filterMap_const_sublist o g rest).cons₂ _

/-- With distinct directory languages, the parsed association list of
`validate_module` has distinct keys. -/
theorem parsed_keys_nodup {m : Module}
    (hnd : (m.lprojDirs.map (fun x => x.lang)).Nodup) :
    ((m.lprojDirs.filterMap (fun d =>
      d.strings_file.map (fun fd => (d.lang, Validate.parse_strings_file fd)))).map
        Prod.fst).Nodup := by
  rw [List.map_filterMap]
  have heq : ∀ d : LprojDir,
      (d.strings_file.map (fun fd =>
        (d.lang, Validate.parse_strings_file fd))).map Prod.fst =
      d.strings_file.map (fun _ => d.lang) := by
    intro d
    cases d.strings_file <;> rfl
  rw [List.filterMap_congr (fun d _ => heq d)]
  exact ((filterMap_const_sublist (fun d : LprojDir => d.strings_file)
    (fun d => d.lang) m.lprojDirs)).nodup hnd

def moduleC5 : Module :=
  ⟨"Demo", true,
   [⟨"en", some (.utf8 ("\"a\" = \"A\";".data))⟩,
    ⟨"fr", some FileData.undecodable⟩]⟩

/-- C5: the claim as stated is false for the syncer.  On a module whose
`fr` file is unreadable under both encodings, the whole sync run aborts
with an uncaught exception (no report at all), while the validator
indeed just records a per-file error and reports. -/
theorem C5_counterexample :
    Sync.sync_module moduleC5 Sync.Mode.report = (.error (), moduleC5) ∧
    vIsError (Validate.validate_module moduleC5) = false := by
  refine ⟨rfl, ?_⟩
  decide

/-- C5 (amended): both parsers read UTF-8 first and fall back to
UTF-16.  A file unreadable under both is handled only by the validator:
it yields the per-file `Cannot read file` error, recorded under that
language in the report's `parse_errors`, with the language still listed
and the run completing.  The syncer's fallback read is unguarded, so
the same file aborts its whole run with an uncaught exception. -/
theorem C5_undecodable (m : Module) (mode : Sync.Mode)
    (d dEn : LprojDir) (fdEn : FileData) (enTxt : List Char)
    (hd : d ∈ m.lprojDirs) (hden : ¬ d.lang = "en")
    (hund : d.strings_file = some FileData.undecodable)
    (hnd : (m.lprojDirs.map (fun x => x.lang)).Nodup)
    (hfind : m.lprojDirs.find? (fun x => x.lang == "en") = some dEn)
    (hfdEn : dEn.strings_file = some fdEn)
    (hreadEn : Sync.read_text fdEn = .ok enTxt)
    (hres : m.hasResources = true) (hne : m.lprojDirs.isEmpty = false) :
    Validate.parse_strings_file FileData.undecodable =
      ([], ["Cannot read file"]) ∧
    vIsError (Validate.validate_module m) = false ∧
    (∀ s i, Validate.validate_module m = .report s i →
      pyGet? i.parse_errors d.lang = some ["Cannot read file"] ∧
      d.lang ∈ s.languages) ∧
    (∃ m2, Sync.sync_module m mode = (.error (), m2)) := by
  have hmem : d.lang ∈ pyKeys (allStringsOf m) :=
    mem_allStringsOf.mpr ⟨d, hd, rfl, by rw [hund]; simp⟩
  have hall : allStringsOf m ≠ [] := by
    intro hcon
    rw [hcon] at hmem
    exact absurd hmem (by simp [pyKeys])
  refine ⟨rfl, validate_report_total hres hne hall, ?_, ?_⟩
  · intro s i hv
    obtain ⟨-, hlangs, -, hpe, -⟩ := validate_report_inv hv
    refine ⟨?_, by rw [hlangs]; exact hmem⟩
    rw [hpe]
    unfold parseErrorsOf
    have hx : (d.lang, Validate.parse_strings_file FileData.undecodable) ∈
        m.lprojDirs.filterMap (fun d =>
          d.strings_file.map (fun fd => (d.lang, Validate.parse_strings_file fd))) :=
      List.mem_filterMap.mpr ⟨d, hd, by rw [hund]; rfl⟩
    have hvals : ∀ z ∈ m.lprojDirs.filterMap (fun d =>
        d.strings_file.map (fun fd => (d.lang, Validate.parse_strings_file fd))),
        z.1 = d.lang → z.2 = Validate.parse_strings_file FileData.undecodable := by
      intro z hz hzk
      obtain ⟨dz, hdz, hmap⟩ := List.mem_filterMap.mp hz
      cases hfz : dz.strings_file with
      | none =>
        rw [hfz] at hmap
        exact absurd hmap (by simp)
      | some fdz =>
        rw [hfz] at hmap
        simp only [Option.map_some', Option.some.injEq] at hmap
        have hlangz : dz.lang = d.lang := by rw [← hzk, ← hmap]
        have hdzd : dz = d := List.inj_on_of_nodup_map hnd hdz hd hlangz
        rw [hdzd] at hfz
        rw [hund] at hfz
        injection hfz with hfz2
        rw [← hmap, hfz2]
    have := condInsert_get (fun z => z.1)
      (fun (z : String × (List (String × String) × List String)) => z.2.2)
      (fun z => z.2.2.isEmpty)
      (m.lprojDirs.filterMap (fun d =>
        d.strings_file.map (fun fd => (d.lang, Validate.parse_strings_file fd))))
      [] (d.lang, Validate.parse_strings_file FileData.undecodable)
      hx rfl (fun z hz hzk => congrArg (fun w => w.2) (hvals z hz hzk))
    exact this
  · unfold Sync.sync_module
    rw [hres]
    simp only [Bool.not_true, Bool.false_eq_true, if_false]
    rw [hne]
    simp only [Bool.false_eq_true, if_false]
    rw [hfind]
    dsimp only
    rw [hfdEn]
    dsimp only
    cases hrEn : Sync.read_text fdEn with
    | error e =>
      rw [hrEn] at hreadEn
      exact absurd hreadEn (by simp)
    | ok txt =>
      dsimp only
      have hdS : d ∈ Sync.sortedDirs m.lprojDirs :=
        ((sortedDirs_perm m.lprojDirs).mem_iff).mpr hd
      obtain ⟨m2, hloop⟩ := syncLoop_error_of_undecodable
        (Sync.sortedDirs m.lprojDirs) m [] [] d hdS hden hund
      rw [hloop]
      exact ⟨m2, rfl⟩

/-- Witness for the amended C5 on the two-language module with an
undecodable French file. -/
theorem C5_undecodable_witness :
    Validate.parse_strings_file FileData.undecodable =
      ([], ["Cannot read file"]) ∧
    vIsError (Validate.validate_module moduleC5) = false ∧
    (∀ s i, Validate.validate_module moduleC5 = .report s i →
      pyGet? i.parse_errors (LprojDir.mk "fr" (some FileData.undecodable)).lang =
        some ["Cannot read file"] ∧
      (LprojDir.mk "fr" (some FileData.undecodable)).lang ∈ s.languages) ∧
    (∃ m2, Sync.sync_module moduleC5 Sync.Mode.report = (.error (), m2)) :=
  C5_undecodable moduleC5 Sync.Mode.report
    ⟨"fr", some FileData.undecodable⟩
    ⟨"en", some (.utf8 ("\"a\" = \"A\";".data))⟩
    (.utf8 ("\"a\" = \"A\";".data)) ("\"a\" = \"A\";".data)
    (by decide) (by decide) (by decide) (by decide) (by decide)
    (by decide) rfl (by decide) (by decide)

/-! ## Claim C7 -/

theorem pyGet?_some_mem {α : Type} :
    ∀ {m : List (String × α)} {k : String} {v : α},
      pyGet? m k = some v → k ∈ pyKeys m
  | [], k, v => by
    intro h
    exact absurd h (by simp [pyGet?])
  | p :: rest, k, v => by
    intro h
    obtain ⟨k1, v1⟩ := p
    by_cases hk : k1 = k
    · simp [pyKeys, hk]
    · rw [show pyGet? ((k1, v1) :: rest) k = pyGet? rest k from by
        simp [pyGet?, hk]] at h
      simp only [pyKeys, List.map_cons, List.mem_cons]
      exact Or.inr (pyGet?_some_mem h)

/-- C7: a placeholder mismatch is reported for a shared key exactly
when the two extracted placeholder lists differ as multisets (sorted
sequences): reordering identical tokens never triggers a report, a
differing count of the same token always does. -/
theorem C7_placeholder_mismatch
    (primary_strings lang_strings : List (String × String))
    (k pv lv : String)
    (h1 : pyGet? primary_strings k = some pv)
    (h2 : pyGet? lang_strings k = some lv) :
    (k, Validate.extract_placeholders pv, Validate.extract_placeholders lv) ∈
        (Validate.langIssues primary_strings lang_strings).ph ↔
      ¬ List.Perm (Validate.extract_placeholders pv)
          (Validate.extract_placeholders lv) := by
  have hph : (Validate.langIssues primary_strings lang_strings).ph =
      (sortedStr ((pyKeys primary_strings).filter
        (fun x => containsKey lang_strings x))).filterMap (fun x =>
        if sortedStr (Validate.extract_placeholders
              ((pyGet? primary_strings x).getD "")) ≠
            sortedStr (Validate.extract_placeholders
              ((pyGet? lang_strings x).getD "")) then
          some (x, Validate.extract_placeholders
              ((pyGet? primary_strings x).getD ""),
            Validate.extract_placeholders ((pyGet? lang_strings x).getD ""))
        else none) := rfl
  rw [hph, List.mem_filterMap]
  constructor
  · intro h
    obtain ⟨x, -, hf⟩ := h
    by_cases hc : sortedStr (Validate.extract_placeholders
        ((pyGet? primary_strings x).getD "")) ≠
      sortedStr (Validate.extract_placeholders ((pyGet? lang_strings x).getD ""))
    · rw [if_pos hc] at hf
      injection hf with hf2
      have hx : x = k := congrArg Prod.fst hf2
      subst hx
      rw [h1, h2] at hc
      simp only [Option.getD_some] at hc
      intro hp
      exact hc (sortedStr_eq_iff_perm.mpr hp)
    · rw [if_neg hc] at hf
      exact absurd hf (by simp)
  · intro hnp
    refine ⟨k, ?_, ?_⟩
    · rw [(sortedStr_perm _).mem_iff, List.mem_filter]
      refine ⟨pyGet?_some_mem h1, ?_⟩
      exact containsKey_iff_mem_pyKeys.mpr (pyGet?_some_mem h2)
    · rw [h1, h2]
      have hc : sortedStr (Validate.extract_placeholders pv) ≠
          sortedStr (Validate.extract_placeholders lv) :=
        fun hh => hnp (sortedStr_eq_iff_perm.mp hh)
      rw [if_pos (by simpa using hc)]
      simp

/-- Witness for C7: `%@ %@` against `%@` — same token, differing
count — is reported. -/
theorem C7_placeholder_mismatch_witness :
    ((("k" : String), Validate.extract_placeholders "%@ %@",
        Validate.extract_placeholders "%@") ∈
      (Validate.langIssues [("k", "%@ %@")] [("k", "%@")]).ph ↔
      ¬ List.Perm (Validate.extract_placeholders "%@ %@")
        (Validate.extract_placeholders "%@")) :=
  C7_placeholder_mismatch [("k", "%@ %@")] [("k", "%@")] "k" "%@ %@" "%@"
    (by decide) (by decide)

/-! ## The module state across a sync run -/

theorem LprojDir_ext {a b : LprojDir} (h1 : a.lang = b.lang)
    (h2 : a.strings_file = b.strings_file) : a = b := by
  cases a
  cases b
  simp_all

/-- `write_text` never renames a directory. -/
theorem writeFile_lang_map (m : Module) (L : String) (fd : FileData) :
    (Sync.writeFile m L fd).lprojDirs.map (fun x => x.lang) =
      m.lprojDirs.map (fun x => x.lang) := by
  unfold Sync.writeFile
  dsimp only
  rw [List.map_map]
  apply List.map_congr_left
  intro e _
  by_cases h : e.lang = L
  · simp [h]
  · simp [h]

/-- What the entries of a written module look like. -/
theorem writeFile_mem_cases {m : Module} {L : String} {fd : FileData}
    {e : LprojDir} (he : e ∈ (Sync.writeFile m L fd).lprojDirs) :
    ∃ e0 ∈ m.lprojDirs,
      (¬ e0.lang = L ∧ e = e0) ∨ (e0.lang = L ∧ e = ⟨e0.lang, some fd⟩) := by
  unfold Sync.writeFile at he
  dsimp only at he
  obtain ⟨e0, he0, hfe⟩ := List.mem_map.mp he
  refine ⟨e0, he0, ?_⟩
  by_cases h : e0.lang = L
  · rw [if_pos h] at hfe
    exact Or.inr ⟨h, hfe.symm⟩
  · rw [if_neg h] at hfe
    exact Or.inl ⟨h, hfe.symm⟩

/-- The sync loop never renames, adds or removes a directory. -/
theorem syncLoop_lang_map {ps : List (String × String)} {pk : List String}
    {mode : Sync.Mode} :
    ∀ (dirs : List LprojDir) (m : Module)
      (acc : List (String × Sync.LangEntry)) (sy : List String)
      (res : Except Unit (List (String × Sync.LangEntry) × List String))
      (m' : Module),
      Sync.syncLoop ps pk mode dirs m acc sy = (res, m') →
      m'.lprojDirs.map (fun x => x.lang) = m.lprojDirs.map (fun x => x.lang) := by
  intro dirs
  induction dirs with
  | nil =>
    intro m acc sy res m' h
    rw [syncLoop_nil] at h
    simp only [Prod.mk.injEq] at h
    rw [← h.2]
  | cons d0 rest ih =>
    intro m acc sy res m' h
    rw [syncLoop_cons] at h
    split at h
    · exact ih m acc sy res m' h
    · split at h
      · exact ih m _ sy res m' h
      · split at h
        · simp only [Prod.mk.injEq] at h
          rw [← h.2]
        · split at h
          · exact (ih _ _ _ res m' h).trans (writeFile_lang_map m _ _)
          · exact ih m _ sy res m' h

/-- A language to which no step of the loop writes keeps its file. -/
theorem syncLoop_keepFile {ps : List (String × String)} {pk : List String}
    {mode : Sync.Mode} (L : String) (v : Option FileData) :
    ∀ (dirs : List LprojDir) (m : Module)
      (acc : List (String × Sync.LangEntry)) (sy : List String)
      (res : Except Unit (List (String × Sync.LangEntry) × List String))
      (m' : Module),
      Sync.syncLoop ps pk mode dirs m acc sy = (res, m') →
      (∀ d' ∈ dirs, d'.lang = L →
        d'.lang = "en" ∨ ¬ mode = Sync.Mode.sync ∨ d'.strings_file = none ∨
        (∀ fd txt, d'.strings_file = some fd →
          Sync.read_text fd = Except.ok txt → Sync.missingOf pk txt = [])) →
      (∀ e ∈ m.lprojDirs, e.lang = L → e.strings_file = v) →
      ∀ e ∈ m'.lprojDirs, e.lang = L → e.strings_file = v := by
  intro dirs
  induction dirs with
  | nil =>
    intro m acc sy res m' h _ hP
    rw [syncLoop_nil] at h
    simp only [Prod.mk.injEq] at h
    rw [← h.2]
    exact hP
  | cons d0 rest ih =>
    intro m acc sy res m' h hcond hP
    have hcond' : ∀ d' ∈ rest, d'.lang = L →
        d'.lang = "en" ∨ ¬ mode = Sync.Mode.sync ∨ d'.strings_file = none ∨
        (∀ fd txt, d'.strings_file = some fd →
          Sync.read_text fd = Except.ok txt → Sync.missingOf pk txt = []) :=
      fun d' hd' => hcond d' (by simp [hd'])
    rw [syncLoop_cons] at h
    split at h
    · exact ih m acc sy res m' h hcond' hP
    next hen =>
      split at h
      · exact ih m _ sy res m' h hcond' hP
      next fd hfd =>
        split at h
        · simp only [Prod.mk.injEq] at h
          rw [← h.2]
          exact hP
        next txt hread =>
          split at h
          next hw =>
            refine ih _ _ _ res m' h hcond' ?_
            have hd0L : ¬ d0.lang = L := by
              intro hL
              rcases hcond d0 (by simp) hL with hc | hc | hc | hc
              · exact hen hc
              · exact hc hw.1
              · rw [hfd] at hc
                exact absurd hc (by simp)
              · have := hc fd txt hfd hread
                rw [this] at hw
                exact absurd hw.2 (by simp)
            intro e he heL
            obtain ⟨e0, he0, hcase⟩ := writeFile_mem_cases he
            rcases hcase with ⟨-, hee0⟩ | ⟨hl0, hee0⟩
            · rw [hee0]
              exact hP e0 he0 (hee0 ▸ heL)
            · exfalso
              apply hd0L
              rw [← hl0]
              rw [hee0] at heL
              exact heL
          · exact ih m _ sy res m' h hcond' hP

/-- The value the loop writes for a synced target: the new content, as
UTF-8, for every module entry of that language. -/
theorem syncLoop_setFile {ps : List (String × String)} {pk : List String}
    {mode : Sync.Mode} :
    ∀ (dirs : List LprojDir) (m : Module)
      (acc : List (String × Sync.LangEntry)) (sy : List String)
      (langs : List (String × Sync.LangEntry)) (sy' : List String)
      (m' : Module) (d : LprojDir),
      Sync.syncLoop ps pk mode dirs m acc sy = (.ok (langs, sy'), m') →
      d ∈ dirs → ¬ d.lang = "en" → (dirs.map (fun x => x.lang)).Nodup →
      mode = Sync.Mode.sync →
      ∀ fd txt, d.strings_file = some fd →
        Sync.read_text fd = Except.ok txt →
        ¬ Sync.missingOf pk txt = [] →
        ∀ e ∈ m'.lprojDirs, e.lang = d.lang →
          e.strings_file =
            some (.utf8 (Sync.new_content txt ps (Sync.missingOf pk txt))) := by
  intro dirs
  induction dirs with
  | nil =>
    intro m acc sy langs sy' m' d h hd
    exact absurd hd (by simp)
  | cons d0 rest ih =>
    intro m acc sy langs sy' m' d h hd hden hnd hmode fd txt hfd hread hmiss
    have hnd' : (rest.map (fun x => x.lang)).Nodup := (List.nodup_cons.mp hnd).2
    have hd0notin : d0.lang ∉ rest.map (fun x => x.lang) := (List.nodup_cons.mp hnd).1
    rcases List.mem_cons.mp hd with hdd | hdrest
    · subst hdd
      rw [syncLoop_cons, if_neg hden, hfd] at h
      dsimp only at h
      rw [hread] at h
      dsimp only at h
      rw [if_pos ⟨hmode, by
        rw [Bool.not_eq_true', ← Bool.not_eq_true, List.isEmpty_iff]
        simpa using hmiss⟩] at h
      refine syncLoop_keepFile d.lang _ rest _ _ _ _ m' h ?_ ?_
      · intro d' hd' hL
        exact absurd (hL ▸ List.mem_map_of_mem (fun x => x.lang) hd') hd0notin
      · intro e he heL
        obtain ⟨e0, he0, hcase⟩ := writeFile_mem_cases he
        rcases hcase with ⟨hne, hee0⟩ | ⟨hl0, hee0⟩
        · exact absurd (hee0 ▸ heL) hne
        · rw [hee0]
    · have hlangne : ¬ d0.lang = d.lang := by
        intro hcon
        exact hd0notin (hcon ▸ List.mem_map_of_mem (fun x => x.lang) hdrest)
      rw [syncLoop_cons] at h
      split at h
      · exact ih m acc sy langs sy' m' d h hdrest hden hnd' hmode
          fd txt hfd hread hmiss
      · split at h
        · exact ih m _ sy langs sy' m' d h hdrest hden hnd' hmode
            fd txt hfd hread hmiss
        · split at h
          · exact absurd h (by simp)
          · split at h
            · exact ih _ _ _ langs sy' m' d h hdrest hden hnd' hmode
                fd txt hfd hread hmiss
            · exact ih m _ sy langs sy' m' d h hdrest hden hnd' hmode
                fd txt hfd hread hmiss

/-- Any `sync_module` run either leaves the module untouched or runs
the loop on it after a successful primary read. -/
theorem sync_module_state {m : Module} {mode : Sync.Mode}
    {res : Except Unit Sync.SyncOutcome} {m' : Module}
    (h : Sync.sync_module m mode = (res, m')) :
    m' = m ∨ ∃ dEn fd txt res2,
      m.lprojDirs.find? (fun d => d.lang == "en") = some dEn ∧
      dEn.strings_file = some fd ∧ Sync.read_text fd = Except.ok txt ∧
      Sync.syncLoop (Sync.parseContent txt).1 (pyKeys (Sync.parseContent txt).1)
        mode (Sync.sortedDirs m.lprojDirs) m [] [] = (res2, m') := by
  unfold Sync.sync_module at h
  split at h
  · simp only [Prod.mk.injEq] at h
    exact Or.inl h.2.symm
  · split at h
    · simp only [Prod.mk.injEq] at h
      exact Or.inl h.2.symm
    · split at h
      · simp only [Prod.mk.injEq] at h
        exact Or.inl h.2.symm
      next dEn hfind =>
        split at h
        · simp only [Prod.mk.injEq] at h
          exact Or.inl h.2.symm
        next fd hfd =>
          split at h
          · simp only [Prod.mk.injEq] at h
            exact Or.inl h.2.symm
          next txt hread =>
            dsimp only at h
            split at h
            next m2 a hloop =>
              simp only [Prod.mk.injEq] at h
              exact Or.inr ⟨dEn, fd, txt, _, hfind, hfd, hread,
                h.2 ▸ hloop⟩
            next langs synced m2 hloop =>
              simp only [Prod.mk.injEq] at h
              exact Or.inr ⟨dEn, fd, txt, _, hfind, hfd, hread,
                h.2 ▸ hloop⟩

/-! ## Claim C9 -/

/-- C9: the sync operation never writes the primary language's file,
never writes a target whose missing-key set is empty, never writes in
report mode, and never creates a file for a directory that has none:
such a directory's entry is unchanged in the final module state,
whether the run succeeds or aborts. -/
theorem C9_write_discipline (m : Module) (mode : Sync.Mode)
    (res : Except Unit Sync.SyncOutcome) (m' : Module) (e : LprojDir)
    (dEn : LprojDir) (fdEn : FileData) (enTxt : List Char)
    (hrun : Sync.sync_module m mode = (res, m'))
    (hfind : m.lprojDirs.find? (fun x => x.lang == "en") = some dEn)
    (hfdEn : dEn.strings_file = some fdEn)
    (hreadEn : Sync.read_text fdEn = .ok enTxt)
    (he : e ∈ m.lprojDirs)
    (hnd : (m.lprojDirs.map (fun x => x.lang)).Nodup)
    (hcond : e.lang = "en" ∨ ¬ mode = Sync.Mode.sync ∨ e.strings_file = none ∨
      (∀ fd txt, e.strings_file = some fd → Sync.read_text fd = Except.ok txt →
        Sync.missingOf (pyKeys (Sync.parseContent enTxt).1) txt = [])) :
    ∀ e' ∈ m'.lprojDirs, e'.lang = e.lang → e' = e := by
  intro e' he' hlang
  rcases sync_module_state hrun with hm |
    ⟨dEn', fd', txt', res2, hfind', hfd', hread', hloop⟩
  · subst hm
    exact List.inj_on_of_nodup_map hnd he' he hlang
  · rw [hfind] at hfind'
    injection hfind' with h1
    subst h1
    rw [hfdEn] at hfd'
    injection hfd' with h2
    subst h2
    rw [hreadEn] at hread'
    injection hread' with h3
    subst h3
    have hcondS : ∀ d' ∈ Sync.sortedDirs m.lprojDirs, d'.lang = e.lang →
        d'.lang = "en" ∨ ¬ mode = Sync.Mode.sync ∨ d'.strings_file = none ∨
        (∀ fd txt, d'.strings_file = some fd →
          Sync.read_text fd = Except.ok txt →
          Sync.missingOf (pyKeys (Sync.parseContent enTxt).1) txt = []) := by
      intro d' hd' hL
      have hd'mem : d' ∈ m.lprojDirs :=
        ((sortedDirs_perm m.lprojDirs).mem_iff).mp hd'
      have hde : d' = e := List.inj_on_of_nodup_map hnd hd'mem he hL
      subst hde
      exact hcond
    have hP : ∀ x ∈ m.lprojDirs, x.lang = e.lang →
        x.strings_file = e.strings_file := by
      intro x hx hxL
      have hxe : x = e := List.inj_on_of_nodup_map hnd hx he hxL
      rw [hxe]
    have hfile := syncLoop_keepFile e.lang e.strings_file
      (Sync.sortedDirs m.lprojDirs) m [] [] res2 m' hloop hcondS hP e' he' hlang
    exact LprojDir_ext hlang hfile

def enTxtC9w : List Char := ("\"a\" = \"A\";").data

def frTxtC9w : List Char := ("\"a\" = \"X\";").data

def dEnC9w : LprojDir := ⟨"en", some (.utf8 enTxtC9w)⟩

def dFrC9w : LprojDir := ⟨"fr", some (.utf8 frTxtC9w)⟩

def moduleC9w : Module := ⟨"Demo", true, [dEnC9w, dFrC9w]⟩

def rC9w : Sync.SyncReport :=
  ⟨"Demo", "en", 1, [("fr", Sync.LangEntry.stats "ok" 1 0 0 [] 1000)], some []⟩

/-- Witness for C9 in sync mode: the primary entry of the final module
state is the original entry, file untouched. -/
theorem C9_write_discipline_witness :
    (⟨"en", some (.utf8 enTxtC9w)⟩ : LprojDir) = dEnC9w :=
  C9_write_discipline moduleC9w Sync.Mode.sync (.ok (.report rC9w)) moduleC9w
    dEnC9w dEnC9w (.utf8 enTxtC9w) enTxtC9w
    rfl (by decide) (by decide) rfl (by decide) (by decide) (Or.inl rfl)
    ⟨"en", some (.utf8 enTxtC9w)⟩ (by decide) rfl

/-! ## Claim C10 -/

/-- C10: a target file amended by the sync operation is written back as
UTF-8 even when its original content was only readable as UTF-16 — the
on-disk encoding changes as a side effect of the append. -/
theorem C10_utf8_rewrite (m : Module) (r : Sync.SyncReport) (m' : Module)
    (dEn : LprojDir) (fdEn : FileData) (enTxt : List Char)
    (d : LprojDir) (txt : List Char)
    (hrun : Sync.sync_module m Sync.Mode.sync = (.ok (.report r), m'))
    (hfind : m.lprojDirs.find? (fun x => x.lang == "en") = some dEn)
    (hfdEn : dEn.strings_file = some fdEn)
    (hreadEn : Sync.read_text fdEn = .ok enTxt)
    (hd : d ∈ m.lprojDirs) (hden : ¬ d.lang = "en")
    (hnd : (m.lprojDirs.map (fun x => x.lang)).Nodup)
    (hfd : d.strings_file = some (FileData.utf16 txt))
    (hmiss : ¬ Sync.missingOf (pyKeys (Sync.parseContent enTxt).1) txt = []) :
    ∀ e ∈ m'.lprojDirs, e.lang = d.lang →
      e.strings_file = some (.utf8 (Sync.new_content txt
        (Sync.parseContent enTxt).1
        (Sync.missingOf (pyKeys (Sync.parseContent enTxt).1) txt))) := by
  obtain ⟨dEn', fd', txt', sy, hfind', hfd', hread', hloop, -, -, -, -⟩ :=
    sync_module_report_inv hrun
  rw [hfind] at hfind'
  injection hfind' with h1
  subst h1
  rw [hfdEn] at hfd'
  injection hfd' with h2
  subst h2
  rw [hreadEn] at hread'
  injection hread' with h3
  subst h3
  have hdmem : d ∈ Sync.sortedDirs m.lprojDirs :=
    ((sortedDirs_perm m.lprojDirs).mem_iff).mpr hd
  have hndS : ((Sync.sortedDirs m.lprojDirs).map (fun x => x.lang)).Nodup :=
    (((sortedDirs_perm m.lprojDirs).map (fun x => x.lang)).nodup_iff).mpr hnd
  exact syncLoop_setFile (Sync.sortedDirs m.lprojDirs) m [] [] r.languages sy
    m' d hloop hdmem hden hndS rfl (FileData.utf16 txt) txt hfd rfl hmiss

def enTxtC10w : List Char := ("\"a\" = \"A\";\n\"b\" = \"B\";").data

def frTxtC10w : List Char := ("\"a\" = \"X\";").data

def dEnC10w : LprojDir := ⟨"en", some (.utf8 enTxtC10w)⟩

def dFrC10w : LprojDir := ⟨"fr", some (.utf16 frTxtC10w)⟩

def moduleC10w : Module := ⟨"Demo", true, [dEnC10w, dFrC10w]⟩

def psC10w : List (String × String) := (Sync.parseContent enTxtC10w).1

def missC10w : List String := Sync.missingOf (pyKeys psC10w) frTxtC10w

def moduleC10w' : Module :=
  ⟨"Demo", true,
   [dEnC10w, ⟨"fr", some (.utf8 (Sync.new_content frTxtC10w psC10w missC10w))⟩]⟩

def rC10w : Sync.SyncReport :=
  ⟨"Demo", "en", 2,
   [("fr", Sync.LangEntry.stats "incomplete" 1 1 0 ["b"] 500)],
   some ["fr.lproj/Localizable.strings"]⟩

/-- Witness for C10: a UTF-16 French file with one missing key comes
back as UTF-8 in the final module state. -/
theorem C10_utf8_rewrite_witness :
    (⟨"fr", some (.utf8 (Sync.new_content frTxtC10w psC10w missC10w))⟩ :
        LprojDir).strings_file =
      some (.utf8 (Sync.new_content frTxtC10w
        (Sync.parseContent enTxtC10w).1
        (Sync.missingOf (pyKeys (Sync.parseContent enTxtC10w).1) frTxtC10w))) :=
  C10_utf8_rewrite moduleC10w rC10w moduleC10w' dEnC10w (.utf8 enTxtC10w)
    enTxtC10w dFrC10w frTxtC10w
    rfl (by decide) (by decide) rfl (by decide) (by decide) (by decide)
    (by decide) (by decide)
    ⟨"fr", some (.utf8 (Sync.new_content frTxtC10w psC10w missC10w))⟩
    (by decide) rfl

/-! ## Claim C8 -/

/-- One appended block as the spec words it, without its leading
newline: marker comment, newline, then the statement with the value
taken verbatim from the parsed primary table. -/
def blockFor (ps : List (String × String)) (k : String) : List Char :=
  ("/* TODO: Translate from English */".data) ++
    '\n' :: '"' :: k.data ++ ("\" = \"".data) ++
    ((pyGet? ps k).getD "").data ++ ("\";".data)

/-- Blocks separated by exactly one blank line (two newline
characters) between consecutive blocks. -/
def blocksJoined : List (List Char) → List Char
  | [] => []
  | [b] => b
  | b :: bs => b ++ '\n' :: '\n' :: blocksJoined bs

/-- Joining newline-prefixed blocks with single newlines is the same
as separating the bare blocks by blank lines after a leading blank
line. -/
theorem joinNl_newline_blocks :
    ∀ bs : List (List Char), bs ≠ [] →
      '\n' :: joinNl (bs.map (fun b => '\n' :: b)) =
        '\n' :: '\n' :: blocksJoined bs
  | [], h => absurd rfl h
  | [b], _ => rfl
  | b :: b2 :: rest, _ => by
    have ih := joinNl_newline_blocks (b2 :: rest) (by simp)
    rw [List.map_cons]
    rw [joinNl_cons (by simp)]
    show '\n' :: (('\n' :: b) ++ '\n' :: joinNl ((b2 :: rest).map (fun b => '\n' :: b)))
      = '\n' :: '\n' :: (b ++ '\n' :: '\n' :: blocksJoined (b2 :: rest))
    rw [List.cons_append]
    rw [show ('\n' :: joinNl ((b2 :: rest).map (fun b => '\n' :: b)))
      = '\n' :: '\n' :: blocksJoined (b2 :: rest) from ih]

/-- The shape of the appended content. -/
theorem new_content_shape (content : List Char)
    (ps : List (String × String)) (missing : List String)
    (h : missing ≠ []) :
    Sync.new_content content ps missing =
      rstripChars content ++ '\n' :: '\n' ::
        blocksJoined ((sortedStr missing).map (blockFor ps)) ++ ['\n'] := by
  unfold Sync.new_content
  have hadd : (sortedStr missing).map
      (fun k => Sync.additionFor k ((pyGet? ps k).getD "")) =
    ((sortedStr missing).map (blockFor ps)).map (fun b => '\n' :: b) := by
    rw [List.map_map]
    apply List.map_congr_left
    intro k _
    rfl
  rw [hadd]
  have hne : (sortedStr missing).map (blockFor ps) ≠ [] := by
    intro hcon
    have := (sortedStr_perm missing).length_eq
    rw [show sortedStr missing = [] from by
      have := congrArg List.length hcon
      simpa using this] at this
    exact h (List.eq_nil_of_length_eq_zero this.symm)
  have hjoin := joinNl_newline_blocks ((sortedStr missing).map (blockFor ps)) hne
  rw [show rstripChars content ++
      '\n' :: joinNl (((sortedStr missing).map (blockFor ps)).map
        (fun b => '\n' :: b)) ++ ['\n'] =
    rstripChars content ++
      ('\n' :: joinNl (((sortedStr missing).map (blockFor ps)).map
        (fun b => '\n' :: b))) ++ ['\n'] from rfl]
  rw [hjoin]

/-- C8: for a synced target with missing keys, the written file is the
trimmed original, one blank line, then one block per missing key in
sorted key order — marker comment, newline, `"key" = "value";` with the
value verbatim from the parsed primary table — blocks separated by
exactly one blank line, and a single trailing newline. -/
theorem C8_append_shape (m : Module) (r : Sync.SyncReport) (m' : Module)
    (dEn : LprojDir) (fdEn : FileData) (enTxt : List Char)
    (d : LprojDir) (fd : FileData) (txt : List Char)
    (hrun : Sync.sync_module m Sync.Mode.sync = (.ok (.report r), m'))
    (hfind : m.lprojDirs.find? (fun x => x.lang == "en") = some dEn)
    (hfdEn : dEn.strings_file = some fdEn)
    (hreadEn : Sync.read_text fdEn = .ok enTxt)
    (hd : d ∈ m.lprojDirs) (hden : ¬ d.lang = "en")
    (hnd : (m.lprojDirs.map (fun x => x.lang)).Nodup)
    (hfd : d.strings_file = some fd) (hread : Sync.read_text fd = .ok txt)
    (hmiss : ¬ Sync.missingOf (pyKeys (Sync.parseContent enTxt).1) txt = []) :
    (∀ e ∈ m'.lprojDirs, e.lang = d.lang →
      e.strings_file = some (.utf8 (Sync.new_content txt
        (Sync.parseContent enTxt).1
        (Sync.missingOf (pyKeys (Sync.parseContent enTxt).1) txt)))) ∧
    Sync.new_content txt (Sync.parseContent enTxt).1
        (Sync.missingOf (pyKeys (Sync.parseContent enTxt).1) txt) =
      rstripChars txt ++ '\n' :: '\n' ::
        blocksJoined ((sortedStr (Sync.missingOf
            (pyKeys (Sync.parseContent enTxt).1) txt)).map
          (blockFor (Sync.parseContent enTxt).1)) ++ ['\n'] ∧
    List.Sorted (fun a b => strLe a b = true)
      (sortedStr (Sync.missingOf (pyKeys (Sync.parseContent enTxt).1) txt)) ∧
    List.Perm
      (sortedStr (Sync.missingOf (pyKeys (Sync.parseContent enTxt).1) txt))
      (Sync.missingOf (pyKeys (Sync.parseContent enTxt).1) txt) := by
  obtain ⟨dEn', fd', txt', sy, hfind', hfd', hread', hloop, -, -, -, -⟩ :=
    sync_module_report_inv hrun
  rw [hfind] at hfind'
  injection hfind' with h1
  subst h1
  rw [hfdEn] at hfd'
  injection hfd' with h2
  subst h2
  rw [hreadEn] at hread'
  injection hread' with h3
  subst h3
  have hdmem : d ∈ Sync.sortedDirs m.lprojDirs :=
    ((sortedDirs_perm m.lprojDirs).mem_iff).mpr hd
  have hndS : ((Sync.sortedDirs m.lprojDirs).map (fun x => x.lang)).Nodup :=
    (((sortedDirs_perm m.lprojDirs).map (fun x => x.lang)).nodup_iff).mpr hnd
  refine ⟨syncLoop_setFile (Sync.sortedDirs m.lprojDirs) m [] [] r.languages sy
      m' d hloop hdmem hden hndS rfl fd txt hfd hread hmiss,
    new_content_shape txt _ _ hmiss, sortedStr_sorted _, sortedStr_perm _⟩

def enTxtC8w : List Char := ("\"a\" = \"A\";\n\"b\" = \"B\";\n\"c\" = \"C\";").data

def frTxtC8w : List Char := ("\"a\" = \"X\";").data

def dEnC8w : LprojDir := ⟨"en", some (.utf8 enTxtC8w)⟩

def dFrC8w : LprojDir := ⟨"fr", some (.utf8 frTxtC8w)⟩

def moduleC8w : Module := ⟨"Demo", true, [dEnC8w, dFrC8w]⟩

def psC8w : List (String × String) := (Sync.parseContent enTxtC8w).1

def missC8w : List String := Sync.missingOf (pyKeys psC8w) frTxtC8w

def moduleC8w' : Module :=
  ⟨"Demo", true,
   [dEnC8w, ⟨"fr", some (.utf8 (Sync.new_content frTxtC8w psC8w missC8w))⟩]⟩

def rC8w : Sync.SyncReport :=
  ⟨"Demo", "en", 3,
   [("fr", Sync.LangEntry.stats "incomplete" 1 2 0 ["b", "c"] 333)],
   some ["fr.lproj/Localizable.strings"]⟩

/-- Witness for C8: two missing keys appended to the French file. -/
theorem C8_append_shape_witness :
    (∀ e ∈ moduleC8w'.lprojDirs, e.lang = dFrC8w.lang →
      e.strings_file = some (.utf8 (Sync.new_content frTxtC8w
        (Sync.parseContent enTxtC8w).1
        (Sync.missingOf (pyKeys (Sync.parseContent enTxtC8w).1) frTxtC8w)))) ∧
    Sync.new_content frTxtC8w (Sync.parseContent enTxtC8w).1
        (Sync.missingOf (pyKeys (Sync.parseContent enTxtC8w).1) frTxtC8w) =
      rstripChars frTxtC8w ++ '\n' :: '\n' ::
        blocksJoined ((sortedStr (Sync.missingOf
            (pyKeys (Sync.parseContent enTxtC8w).1) frTxtC8w)).map
          (blockFor (Sync.parseContent enTxtC8w).1)) ++ ['\n'] ∧
    List.Sorted (fun a b => strLe a b = true)
      (sortedStr (Sync.missingOf
        (pyKeys (Sync.parseContent enTxtC8w).1) frTxtC8w)) ∧
    List.Perm
      (sortedStr (Sync.missingOf
        (pyKeys (Sync.parseContent enTxtC8w).1) frTxtC8w))
      (Sync.missingOf (pyKeys (Sync.parseContent enTxtC8w).1) frTxtC8w) :=
  C8_append_shape moduleC8w rC8w moduleC8w' dEnC8w (.utf8 enTxtC8w) enTxtC8w
    dFrC8w (.utf8 frTxtC8w) frTxtC8w
    rfl (by decide) (by decide) rfl (by decide) (by decide) (by decide)
    (by decide) rfl (by decide)

end LocTool
